import Mathlib

/-!
A verification development for the grammar/enumeration engine of
`ultk` (`src/ultk/language/grammar.py`).

The Python classes `Rule`, `GrammaticalExpression` and `Grammar` are
embedded shallowly:

* type symbols (the `lhs`/`rhs` entries, `Any` in Python) become a type
  parameter `τ` with decidable equality;
* semantic values become a type parameter `V`; a Python callable used as a
  rule function becomes `List V → V` (applied to the tuple of arguments);
* `GrammaticalExpression.children : tuple | None` is embedded by two
  constructors: `leaf name` for `children = None` and `node name cs` for
  `children = tuple(cs)` (so `node name []` is the Python expression with
  `children = ()`, which is distinct from a leaf);
* Python `dict`s become insertion-ordered association lists;
* a raised exception becomes `none` in an `Option`-valued result.
-/

set_option synthInstance.maxSize 2048
set_option linter.unusedVariables false
set_option linter.unusedSectionVars false

universe u v

/-- Embedding of `GrammaticalExpression`: only the syntactic fields
(`rule_name`, `children`) are stored; the `func` field is always resolved
from the rule with the same name, so evaluation looks it up from the
grammar instead. `leaf n` is `children = None`, `node n cs` is
`children = tuple(cs)`. -/
inductive GrammaticalExpression where
  | leaf (ruleName : String)
  | node (ruleName : String) (children : List GrammaticalExpression)

namespace GrammaticalExpression

mutual

def decEq : (a b : GrammaticalExpression) → Decidable (a = b)
  | .leaf n, .leaf m =>
    if h : n = m then isTrue (by rw [h]) else isFalse (by intro hh; cases hh; exact h rfl)
  | .leaf _, .node _ _ => isFalse (by intro h; cases h)
  | .node _ _, .leaf _ => isFalse (by intro h; cases h)
  | .node n cs, .node m ds =>
    if h : n = m then
      match decEqList cs ds with
      | isTrue h2 => isTrue (by rw [h, h2])
      | isFalse h2 => isFalse (by intro hh; cases hh; exact h2 rfl)
    else isFalse (by intro hh; cases hh; exact h rfl)

def decEqList : (as bs : List GrammaticalExpression) → Decidable (as = bs)
  | [], [] => isTrue rfl
  | [], _ :: _ => isFalse (by intro h; cases h)
  | _ :: _, [] => isFalse (by intro h; cases h)
  | a :: as, b :: bs =>
    match decEq a b, decEqList as bs with
    | isTrue h1, isTrue h2 => isTrue (by rw [h1, h2])
    | isFalse h1, _ => isFalse (by intro h; cases h; exact h1 rfl)
    | _, isFalse h2 => isFalse (by intro h; cases h; exact h2 rfl)

end

instance : DecidableEq GrammaticalExpression := decEq

/-- `rule_name` of the root. -/
def ruleName : GrammaticalExpression → String
  | leaf n => n
  | node n _ => n

mutual

/-- Embedding of `GrammaticalExpression.__len__`:
`1 + sum of children lengths` (`children = None` contributes nothing). -/
def length : GrammaticalExpression → Nat
  | leaf _ => 1
  | node _ cs => 1 + lengthList cs

def lengthList : List GrammaticalExpression → Nat
  | [] => 0
  | c :: cs => length c + lengthList cs

end

mutual

/-- Maximum root-to-leaf edge count of an expression tree (the spec's
"derivation depth").  A leaf (`children = None`) has depth 0. -/
def depth : GrammaticalExpression → Nat
  | leaf _ => 0
  | node _ cs => 1 + depthList cs

/-- Maximum of the depths of a list of trees (0 for the empty list). -/
def depthList : List GrammaticalExpression → Nat
  | [] => 0
  | c :: cs => max (depth c) (depthList cs)

end

end GrammaticalExpression

/-- Embedding of the `Rule` dataclass.  `rhs : Sequence | None` becomes
`Option (List τ)`; `func` takes the argument tuple as a list; `weight`
is embedded as a rational number. -/
structure Rule (τ : Type u) (V : Type v) where
  name : String
  lhs : τ
  rhs : Option (List τ)
  func : List V → V
  weight : Rat := 1

/-- Embedding of `Rule.is_terminal`: RHS is `None`. -/
def Rule.isTerminal {τ : Type u} {V : Type v} (r : Rule τ V) : Bool :=
  r.rhs.isNone

/-- Embedding of `Grammar`.  `_rules : defaultdict(lhs, list)` is embedded
as the single registration-ordered list `rules` (the per-`lhs` lists are
recovered by `rulesFor`, which preserves per-`lhs` insertion order), and
`_rules_by_name` as an insertion-ordered association list. -/
structure Grammar (τ : Type u) (V : Type v) where
  rules : List (Rule τ V)
  rulesByName : List (String × Rule τ V)
  start : τ

variable {τ : Type u} {V : Type v} [DecidableEq τ]

namespace Grammar

/-- `self._rules[lhs]`: the rules registered under `lhs`, in registration
order (a `defaultdict` returns `[]` for an absent key). -/
def rulesFor (g : Grammar τ V) (l : τ) : List (Rule τ V) :=
  g.rules.filter fun r => r.lhs = l

/-- `self._rules_by_name[name]` as an optional lookup. -/
def findRule (g : Grammar τ V) (n : String) : Option (Rule τ V) :=
  (g.rulesByName.find? fun p => p.1 = n).map Prod.snd

/-- Embedding of `Grammar.add_rule`.  The Python method first appends the
rule to `self._rules[rule.lhs]`, then checks `rule.name` against
`self._rules_by_name` and raises `ValueError` on a duplicate name
(leaving the by-type table already mutated); on success it also records
the rule in `_rules_by_name`.  The returned `Bool` is `true` iff the
`ValueError` was raised, and the returned grammar is the state of the
object afterwards. -/
def addRule (g : Grammar τ V) (r : Rule τ V) : Bool × Grammar τ V :=
  let g1 : Grammar τ V := { g with rules := g.rules ++ [r] }
  if g.rulesByName.any fun p => p.1 = r.name then
    (true, g1)
  else
    (false, { g1 with rulesByName := g1.rulesByName ++ [(r.name, r)] })

end Grammar

/-- All tuples (as lists) drawn from the given list of ranges, in
`itertools.product` order (leftmost position varies slowest). -/
def listProd {α : Type u} : List (List α) → List (List α)
  | [] => [[]]
  | l :: Ls => l.flatMap fun x => (listProd Ls).map fun ys => x :: ys

/-- Monadic flat-map over `Option`: process the elements left to right,
concatenating the produced lists, propagating the first failure.  This is
the shape of the Python `for` loops that `yield` and may raise. -/
def flatMapM {α : Type u} {β : Type v} (f : α → Option (List β)) :
    List α → Option (List β)
  | [] => some []
  | a :: as => (f a).bind fun bs => (flatMapM f as).map fun rest => bs ++ rest

/-- Monadic map over `Option`, left to right. -/
def seqOpt {α : Type u} {β : Type v} (f : α → Option β) :
    List α → Option (List β)
  | [] => some []
  | a :: as => (f a).bind fun b => (seqOpt f as).map fun bs => b :: bs

namespace Grammar

/-- One layer of `Grammar.enumerate_at_depth` without a uniqueness pass,
with the recursive calls abstracted into `rec`.  `none` models a raised
exception (`max(())` when a non-terminal rule has an empty RHS tuple).
At depth 0 it yields one leaf per terminal rule under `lhs`; at depth
`d'+1` it iterates the rules under `lhs` in order, skips terminal rules,
iterates every per-child depth tuple from `product(range(d'+1), repeat=n)`,
skips tuples whose maximum is `< d'`, and emits the cross product of the
child enumerations wrapped in a node. -/
def enumStep (g : Grammar τ V)
    (rec : Nat → τ → Option (List GrammaticalExpression)) (d : Nat) (l : τ) :
    Option (List GrammaticalExpression) :=
  match d with
  | 0 =>
    some ((g.rulesFor l).filterMap fun r =>
      if r.isTerminal then some (.leaf r.name) else none)
  | d'+1 =>
    flatMapM (fun r =>
      match r.rhs with
      | none => some []
      | some ts =>
        flatMapM (fun t =>
          match t.max? with
          | none => none
          | some m =>
            if m < d' then some []
            else
              (seqOpt (fun p => rec p.1 p.2) (t.zip ts)).map
                fun childLists =>
                  (listProd childLists).map (GrammaticalExpression.node r.name))
          (listProd (List.replicate ts.length (List.range (d'+1)))))
      (g.rulesFor l)

/-- Fuel-indexed recursive enumeration; the result is independent of the
fuel as long as `depth < fuel` (`enumAux_irrel`). -/
def enumAux (g : Grammar τ V) : Nat → Nat → τ → Option (List GrammaticalExpression)
  | 0, _, _ => none
  | fuel+1, d, l => enumStep g (enumAux g fuel) d l

/-- Embedding of `Grammar.enumerate_at_depth(depth, lhs)` (no uniqueness
arguments, fresh cache): the sequence of expressions the generator yields,
or `none` if it raises. -/
def enumerateAtDepth (g : Grammar τ V) (d : Nat) (l : τ) :
    Option (List GrammaticalExpression) :=
  enumAux g (d+1) d l

/-- Embedding of `Grammar.enumerate(depth, lhs)` without uniqueness
arguments, described by the unmemoized recursion: the concatenation of
`enumerate_at_depth(num, lhs)` for `num` in `range(depth)`. -/
def enumerate (g : Grammar τ V) (depth : Nat) (l : τ) :
    Option (List GrammaticalExpression) :=
  flatMapM (fun num => g.enumerateAtDepth num l) (List.range depth)

end Grammar

/-- Embedding of an `inspect.Parameter`: its name, its type annotation and
its default value (`none` models `inspect.Parameter.empty`; only float
defaults are relevant, since the only default read is `weight`'s, which is
passed to `float`). -/
structure PyParam (τ : Type u) where
  name : String
  annot : τ
  default : Option Rat

/-- Embedding of an `inspect.Signature` of a type-annotated callable:
its `__name__`, its parameters in declaration order, and its return
annotation (`none` models `inspect.Signature.empty`). -/
structure PySig (τ : Type u) where
  funcName : String
  params : List (PyParam τ)
  ret : Option τ

/-- The annotations of the parameters that remain after the reserved
`weight` parameter is removed, in declaration order (the tuple
`Rule.from_callable` builds as `rhs` before the terminal-marker
rewrite). -/
def remainingAnnots {τ : Type u} (sig : PySig τ) : List τ :=
  (sig.params.filter fun p => p.name ≠ "weight").map PyParam.annot

/-- Embedding of `Rule.from_callable`.  `refT` is the distinguished
`Referent` class.  `none` models a raised exception: the missing
return-annotation `ValueError`, or the `float(...)` failure when a
`weight` parameter has no default. -/
def Rule.fromCallable (refT : τ) (f : List V → V) (sig : PySig τ) :
    Option (Rule τ V) :=
  match sig.ret with
  | none => none
  | some lhs =>
    let wOpt : Option Rat :=
      if sig.params.any fun p => p.name = "weight" then
        ((sig.params.find? fun p => p.name = "weight").map PyParam.default).getD none
      else
        some 1
    match wOpt with
    | none => none
    | some w =>
      let rhs : Option (List τ) :=
        if remainingAnnots sig ≠ [] ∧ ∀ x ∈ remainingAnnots sig, x = refT
        then none
        else some (remainingAnnots sig)
      some { name := sig.funcName, lhs := lhs, rhs := rhs, func := f, weight := w }

/-- Ordered-dictionary lookup in an association list (first match). -/
def assocFind {α : Type u} {β : Type v} [DecidableEq α]
    (l : List (α × β)) (k : α) : Option β :=
  (l.find? fun p => p.1 = k).map Prod.snd

/-- Ordered-dictionary update: an existing key keeps its position and gets
the new value, a new key is appended (Python `dict` semantics). -/
def assocSet {α : Type u} {β : Type v} [DecidableEq α] :
    List (α × β) → α → β → List (α × β)
  | [], k, v => [(k, v)]
  | p :: l, k, v => if p.1 = k then (k, v) :: l else p :: assocSet l k v

/-- The enumeration cache, keyed by `(depth, lhs)`. -/
abbrev EnumCache (τ : Type u) : Type u :=
  List ((Nat × τ) × List GrammaticalExpression)

/-- State of a memoized enumeration run (no uniqueness pass): the cache,
plus an instrumentation trace recording every `(depth, lhs)` key whose
else-branch (actual computation, as opposed to a cache replay) ran, in
order. -/
structure MemoState (τ : Type u) where
  cache : EnumCache τ
  trace : List (Nat × τ)

/-- State-threading variant of `flatMapM` (for loops that mutate the
cache/uniqueness state while yielding). -/
def flatMapSt {σ : Type w} {α : Type u} {β : Type v}
    (f : α → σ → Option (List β × σ)) : List α → σ → Option (List β × σ)
  | [], s => some ([], s)
  | a :: as, s =>
    (f a s).bind fun p =>
      (flatMapSt f as p.2).map fun q => (p.1 ++ q.1, q.2)

/-- State-threading variant of `seqOpt`. -/
def seqSt {σ : Type w} {α : Type u} {β : Type v}
    (f : α → σ → Option (β × σ)) : List α → σ → Option (List β × σ)
  | [], s => some ([], s)
  | a :: as, s =>
    (f a s).bind fun p =>
      (seqSt f as p.2).map fun q => (p.1 :: q.1, q.2)

/-- The naive per-tuple body of `enumerate_at_depth` at depth `d'+1` (one
per-child depth assignment of rule `rname` with RHS `ts`). -/
def naiveTupleF (g : Grammar τ V) (rec : Nat → τ → Option (List GrammaticalExpression))
    (d' : Nat) (ts : List τ) (rname : String) :
    List Nat → Option (List GrammaticalExpression) :=
  fun t =>
    match t.max? with
    | none => none
    | some m =>
      if m < d' then some []
      else
        (seqOpt (fun p => rec p.1 p.2) (t.zip ts)).map
          fun childLists =>
            (listProd childLists).map (GrammaticalExpression.node rname)

/-- The naive per-rule body of `enumerate_at_depth` at depth `d'+1`. -/
def naiveRuleF (g : Grammar τ V) (rec : Nat → τ → Option (List GrammaticalExpression))
    (d' : Nat) : Rule τ V → Option (List GrammaticalExpression) :=
  fun r =>
    match r.rhs with
    | none => some []
    | some ts =>
      flatMapM (naiveTupleF g rec d' ts r.name)
        (listProd (List.replicate ts.length (List.range (d'+1))))

/-- The memoized (state-threading) per-tuple body. -/
def memoTupleF (g : Grammar τ V)
    (rec : Nat → τ → MemoState τ → Option (List GrammaticalExpression × MemoState τ))
    (d' : Nat) (ts : List τ) (rname : String) :
    List Nat → MemoState τ → Option (List GrammaticalExpression × MemoState τ) :=
  fun t s2 =>
    match t.max? with
    | none => none
    | some m =>
      if m < d' then some ([], s2)
      else
        (seqSt (fun p s3 => rec p.1 p.2 s3) (t.zip ts) s2).map
          fun q =>
            ((listProd q.1).map (GrammaticalExpression.node rname), q.2)

/-- The memoized (state-threading) per-rule body. -/
def memoRuleF (g : Grammar τ V)
    (rec : Nat → τ → MemoState τ → Option (List GrammaticalExpression × MemoState τ))
    (d' : Nat) : Rule τ V → MemoState τ → Option (List GrammaticalExpression × MemoState τ) :=
  fun r s1 =>
    match r.rhs with
    | none => some ([], s1)
    | some ts =>
      flatMapSt (memoTupleF g rec d' ts r.name)
        (listProd (List.replicate ts.length (List.range (d'+1)))) s1

namespace Grammar

/-- One layer of `Grammar.enumerate_at_depth` with a shared cache (no
uniqueness pass), recursive calls abstracted into `rec`.  A cache hit
replays the cached list (`yield from cache[args_tuple]`); otherwise the
key is recorded in the instrumentation trace, the expressions are
computed exactly as in `enumStep` while threading the state through the
child calls, and the computed list is stored in the cache — Python
appends each expression to `cache[args_tuple]` as it is yielded, so after
a full run the key is present if and only if at least one expression was
produced. -/
def enumMemoStep (g : Grammar τ V)
    (rec : Nat → τ → MemoState τ → Option (List GrammaticalExpression × MemoState τ))
    (d : Nat) (l : τ) (s : MemoState τ) :
    Option (List GrammaticalExpression × MemoState τ) :=
  match assocFind s.cache (d, l) with
  | some es => some (es, s)
  | none =>
    let s0 : MemoState τ := { s with trace := s.trace ++ [(d, l)] }
    match d with
    | 0 =>
      let es := (g.rulesFor l).filterMap fun r =>
        if r.isTerminal then some (.leaf r.name) else none
      some (es, { s0 with
        cache := if es.isEmpty then s0.cache else s0.cache ++ [((d, l), es)] })
    | d'+1 =>
      (flatMapSt (memoRuleF g rec d') (g.rulesFor l) s0).map fun q =>
          (q.1, { q.2 with
            cache := if q.1.isEmpty then q.2.cache else q.2.cache ++ [((d, l), q.1)] })

/-- Fuel-indexed memoized enumeration at a fixed depth. -/
def enumMemoAux (g : Grammar τ V) :
    Nat → Nat → τ → MemoState τ → Option (List GrammaticalExpression × MemoState τ)
  | 0, _, _, _ => none
  | fuel+1, d, l, s => enumMemoStep g (enumMemoAux g fuel) d l s

/-- Embedding of `Grammar.enumerate(depth, lhs)` as written (no uniqueness
pass): one cache, created fresh at the top-level call and shared across
the `enumerate_at_depth(num, lhs)` calls for `num` in `range(depth)`. -/
def enumerateMemo (g : Grammar τ V) (depth : Nat) (l : τ) :
    Option (List GrammaticalExpression × MemoState τ) :=
  flatMapSt (fun num s => enumMemoAux g (num+1) num l s) (List.range depth)
    { cache := [], trace := [] }

end Grammar

/-- The `unique_expressions` dictionary of `UniquenessArgs`:
`lhs → (key → expression)`, both levels insertion-ordered as Python
dicts are. -/
abbrev UniqueDict (τ : Type u) (κ : Type w) : Type (max u w) :=
  List (τ × List (κ × GrammaticalExpression))

/-- State of an enumeration run with a uniqueness pass: the
`unique_expressions` dictionary, the `(depth, lhs)` cache, and an
instrumentation trace of every candidate expression constructed during
the run (paired with the `lhs` it was built for), in construction
order — including the candidates `add_unique` rejected. -/
structure UniqueState (τ : Type u) (κ : Type w) where
  udict : UniqueDict τ κ
  cache : EnumCache τ
  constructed : List (τ × GrammaticalExpression)
deriving DecidableEq

variable {κ : Type w} [DecidableEq κ]

/-- Embedding of the `add_unique` closure of `Grammar.enumerate_at_depth`:
compute `key(expression)`; accept if the key is not yet present in
`unique_dict[lhs]`, or if `compare_func` prefers the new expression over
the stored one, storing it in either case; otherwise reject.  The
`defaultdict` access `unique_dict[lhs]` materializes the inner dictionary
even on the reject path. -/
def addUnique (key : GrammaticalExpression → κ)
    (cmp : GrammaticalExpression → GrammaticalExpression → Bool)
    (l : τ) (e : GrammaticalExpression) (ud : UniqueDict τ κ) :
    Bool × UniqueDict τ κ :=
  let inner := (assocFind ud l).getD []
  match assocFind inner (key e) with
  | none => (true, assocSet ud l (assocSet inner (key e) e))
  | some e0 =>
    if cmp e e0 then (true, assocSet ud l (assocSet inner (key e) e))
    else (false, assocSet ud l inner)

/-- Gate one freshly built candidate through `add_unique`: record it in
the construction trace, update the dictionary, and append it to the list
of accepted (yielded) expressions — paired with the dictionary as it
stands at that yield — if `add_unique` returned `True`. -/
def processCandidate (key : GrammaticalExpression → κ)
    (cmp : GrammaticalExpression → GrammaticalExpression → Bool)
    (l : τ) (e : GrammaticalExpression)
    (acc : List (GrammaticalExpression × UniqueDict τ κ) × UniqueState τ κ) :
    List (GrammaticalExpression × UniqueDict τ κ) × UniqueState τ κ :=
  let s1 : UniqueState τ κ :=
    { acc.2 with constructed := acc.2.constructed ++ [(l, e)] }
  let r := addUnique key cmp l e s1.udict
  let s2 : UniqueState τ κ := { s1 with udict := r.2 }
  if r.1 then (acc.1 ++ [(e, r.2)], s2) else (acc.1, s2)

/-- The per-tuple body of the uniqueness-pass enumeration at depth
`d'+1`: one per-child depth assignment of rule `rname` with RHS `ts`,
gating every built combination through `add_unique` at `lhs = l`. -/
def uTupleF (key : GrammaticalExpression → κ)
    (cmp : GrammaticalExpression → GrammaticalExpression → Bool)
    (rec : Nat → τ → UniqueState τ κ →
      Option (List (GrammaticalExpression × UniqueDict τ κ) × UniqueState τ κ))
    (d' : Nat) (ts : List τ) (rname : String) (l : τ) :
    List Nat → UniqueState τ κ →
      Option (List (GrammaticalExpression × UniqueDict τ κ) × UniqueState τ κ) :=
  fun t s2 =>
    match t.max? with
    | none => none
    | some m =>
      if m < d' then some ([], s2)
      else
        (seqSt (fun p s3 =>
            (rec p.1 p.2 s3).map fun q => (q.1.map Prod.fst, q.2))
          (t.zip ts) s2).map
          fun q =>
            (listProd q.1).foldl
              (fun acc cs =>
                processCandidate key cmp l (GrammaticalExpression.node rname cs) acc)
              ([], q.2)

/-- The per-rule body of the uniqueness-pass enumeration at depth `d'+1`. -/
def uRuleF (key : GrammaticalExpression → κ)
    (cmp : GrammaticalExpression → GrammaticalExpression → Bool)
    (rec : Nat → τ → UniqueState τ κ →
      Option (List (GrammaticalExpression × UniqueDict τ κ) × UniqueState τ κ))
    (d' : Nat) (l : τ) :
    Rule τ V → UniqueState τ κ →
      Option (List (GrammaticalExpression × UniqueDict τ κ) × UniqueState τ κ) :=
  fun r s1 =>
    match r.rhs with
    | none => some ([], s1)
    | some ts =>
      flatMapSt (uTupleF key cmp rec d' ts r.name l)
        (listProd (List.replicate ts.length (List.range (d'+1)))) s1

namespace Grammar

/-- One layer of `Grammar.enumerate_at_depth` with `uniqueness_args` and a
shared cache, recursive calls abstracted into `rec`.  The yielded
expressions are returned together with a snapshot of `unique_expressions`
at the moment of each yield (the generator is lazy, so a consumer that
stops early observes exactly the snapshot of its last pull).  A cache hit
replays the cached list without re-gating it through `add_unique`; an
actual computation gates every constructed candidate and caches the
accepted ones. -/
def enumUStep (g : Grammar τ V) (key : GrammaticalExpression → κ)
    (cmp : GrammaticalExpression → GrammaticalExpression → Bool)
    (rec : Nat → τ → UniqueState τ κ →
      Option (List (GrammaticalExpression × UniqueDict τ κ) × UniqueState τ κ))
    (d : Nat) (l : τ) (s : UniqueState τ κ) :
    Option (List (GrammaticalExpression × UniqueDict τ κ) × UniqueState τ κ) :=
  match assocFind s.cache (d, l) with
  | some es => some (es.map fun e => (e, s.udict), s)
  | none =>
    match d with
    | 0 =>
      let p := (g.rulesFor l).foldl
        (fun acc r =>
          if r.isTerminal then
            processCandidate key cmp l (.leaf r.name) acc
          else acc)
        ([], s)
      some (p.1, { p.2 with
        cache := if p.1.isEmpty then p.2.cache
          else p.2.cache ++ [((d, l), p.1.map Prod.fst)] })
    | d'+1 =>
      (flatMapSt (uRuleF key cmp rec d' l) (g.rulesFor l) s).map fun q =>
          (q.1, { q.2 with
            cache := if q.1.isEmpty then q.2.cache
              else q.2.cache ++ [((d, l), q.1.map Prod.fst)] })

/-- Fuel-indexed enumeration with a uniqueness pass. -/
def enumUAux (g : Grammar τ V) (key : GrammaticalExpression → κ)
    (cmp : GrammaticalExpression → GrammaticalExpression → Bool) :
    Nat → Nat → τ → UniqueState τ κ →
      Option (List (GrammaticalExpression × UniqueDict τ κ) × UniqueState τ κ)
  | 0, _, _, _ => none
  | fuel+1, d, l, s => enumUStep g key cmp (enumUAux g key cmp fuel) d l s

/-- `Grammar.enumerate(depth, lhs, uniqueness_args)` with a fresh cache
and a given initial uniqueness state: concatenation over
`num in range(depth)`, every top-level yield carrying its dictionary
snapshot. -/
def enumerateU (g : Grammar τ V) (key : GrammaticalExpression → κ)
    (cmp : GrammaticalExpression → GrammaticalExpression → Bool)
    (depth : Nat) (l : τ) (s : UniqueState τ κ) :
    Option (List (GrammaticalExpression × UniqueDict τ κ) × UniqueState τ κ) :=
  flatMapSt (fun num s1 => enumUAux g key cmp (num+1) num l s1)
    (List.range depth) s

/-- Embedding of `Grammar.get_unique_expressions`.  It drains `enumerate`
under the uniqueness pass, but after each pulled expression it checks
`len(unique_dict) == max_size` — the length of the OUTER dictionary,
whose keys are the `lhs` symbols encountered, not the number of distinct
uniqueness keys — and breaks at the first pull where that holds, finally
returning `unique_dict[lhs]`.  `maxSize = none` models the default
`float("inf")`, which is never equal to a length. -/
def getUniqueExpressions (g : Grammar τ V) (depth : Nat)
    (key : GrammaticalExpression → κ)
    (cmp : GrammaticalExpression → GrammaticalExpression → Bool)
    (l : τ) (maxSize : Option Nat) :
    Option (List (κ × GrammaticalExpression)) :=
  (g.enumerateU key cmp depth l { udict := [], cache := [], constructed := [] }).map
    fun q =>
      match q.1.find? fun y => maxSize = some y.2.length with
      | some y => (assocFind y.2 l).getD []
      | none => (assocFind q.2.udict l).getD []

end Grammar

/-- The whitespace characters matched by Python's `\s` and stripped by
`str.strip()` — the set on which `str.isspace` holds: the ASCII blanks
`\t\n\v\f\r` and space, the file/group/record/unit separators
`\x1c`-`\x1f`, next line `\x85`, no-break space `\xa0`, and the Unicode
space and line/paragraph separators. -/
def isWS (c : Char) : Bool :=
  c == ' ' || c == '\t' || c == '\n' || c == '\x0d' || c == '\x0b' || c == '\x0c'
    || c == '\x1c' || c == '\x1d' || c == '\x1e' || c == '\x1f'
    || c == '\x85' || c == '\xa0' || c == '\u1680'
    || (decide ('\u2000' ≤ c) && decide (c ≤ '\u200a'))
    || c == '\u2028' || c == '\u2029' || c == '\u202f' || c == '\u205f'
    || c == '\u3000'

/-- A character usable inside a name token: anything but the default
opener, closer and delimiter (the regex class `[^(),]`). -/
def isNameChar (c : Char) : Bool :=
  !(c == '(' || c == ')' || c == ',')

/-- Python `str.strip()` on a character list. -/
def pstrip (s : List Char) : List Char :=
  ((s.dropWhile isWS).reverse.dropWhile isWS).reverse

/-- The token classes of `Grammar.parse`'s regular expression (with the
default opener/closer/delimiter): a name directly followed by the opener,
a bare name, the delimiter (with trailing whitespace), the closer. -/
inductive Tok where
  | topen (name : List Char)
  | tname (s : List Char)
  | tdelim
  | tclose
deriving DecidableEq

/-- Embedding of the tokenization loop of `Grammar.parse` with the
default opener/closer/delimiter: `re.finditer` over
`[^(),]+\(|[^(),]+|,\s*|\)` (skipping characters no alternative matches,
i.e. stray openers), with each match `.strip()`ped.  `none` models the
`IndexError` raised by `token[-1]` when a bare name token strips to the
empty string. -/
def tokenize : List Char → Option (List Tok)
  | [] => some []
  | c :: cs =>
    if c = ')' then (tokenize cs).map fun ts => Tok.tclose :: ts
    else if c = ',' then (tokenize (cs.dropWhile isWS)).map fun ts => Tok.tdelim :: ts
    else if c = '(' then tokenize cs
    else
      match h : (c :: cs).dropWhile isNameChar with
      | '(' :: rest2 =>
        (tokenize rest2).map fun ts =>
          Tok.topen (((c :: cs).takeWhile isNameChar).dropWhile isWS) :: ts
      | rest =>
        let t := pstrip ((c :: cs).takeWhile isNameChar)
        if t.isEmpty then none
        else (tokenize rest).map fun ts => Tok.tname t :: ts
termination_by l => l.length
decreasing_by
  · simp only [List.length_cons]
    omega
  · have : (cs.dropWhile isWS).length ≤ cs.length :=
      (List.dropWhile_suffix isWS).length_le
    simp only [List.length_cons]
    omega
  · simp only [List.length_cons]
    omega
  · have h2 : ((c :: cs).dropWhile isNameChar).length ≤ (c :: cs).length :=
      (List.dropWhile_suffix isNameChar).length_le
    rw [h] at h2
    simp only [List.length_cons] at h2 ⊢
    omega
  · have h2 : rest.length ≤ (c :: cs).length := by
      have hx : ((c :: cs).dropWhile isNameChar).length ≤ (c :: cs).length :=
        (List.dropWhile_suffix isNameChar).length_le
      rw [h] at hx
      exact hx
    simp only [List.length_cons] at h2 ⊢
    have hc : isNameChar c = true := by
      simp only [isNameChar, Bool.not_eq_true']
      rename_i hc1 hc2 hc3
      simp only [Bool.or_eq_false_iff, beq_eq_false_iff_ne, ne_eq]
      exact ⟨⟨fun hh => hc3 hh, fun hh => hc1 hh⟩, fun hh => hc2 hh⟩
    have h3 : (c :: cs).dropWhile isNameChar = cs.dropWhile isNameChar := by
      simp [List.dropWhile_cons, hc]
    rw [h3] at h
    have h4 : rest.length ≤ cs.length := by
      have hx : (cs.dropWhile isNameChar).length ≤ cs.length :=
        (List.dropWhile_suffix isNameChar).length_le
      rw [h] at hx
      exact hx
    omega

/-- Embedding of `GrammaticalExpression.add_child`: a `None` children
tuple becomes a one-element tuple, otherwise the child is appended. -/
def addChild (p c : GrammaticalExpression) : GrammaticalExpression :=
  match p with
  | .leaf n => .node n [c]
  | .node n cs => .node n (cs ++ [c])

namespace Grammar

/-- Embedding of the shift/reduce loop of `Grammar.parse`: an opening
token pushes a fresh node with an empty children tuple, a bare name
pushes a leaf (both after resolving the name in `_rules_by_name`; a
missing name is a `KeyError`, modeled `none`); a delimiter or closer pops
the finished child and attaches it to the node beneath.  At the end the
stack must hold exactly one tree. -/
def parseToks (g : Grammar τ V) :
    List Tok → List GrammaticalExpression → Option GrammaticalExpression
  | [], [e] => some e
  | [], _ => none
  | Tok.topen n :: ts, stack =>
    match g.findRule (String.mk n) with
    | none => none
    | some _ => parseToks g ts (GrammaticalExpression.node (String.mk n) [] :: stack)
  | Tok.tname n :: ts, stack =>
    match g.findRule (String.mk n) with
    | none => none
    | some _ => parseToks g ts (GrammaticalExpression.leaf (String.mk n) :: stack)
  | Tok.tdelim :: ts, c :: p :: stack => parseToks g ts (addChild p c :: stack)
  | Tok.tclose :: ts, c :: p :: stack => parseToks g ts (addChild p c :: stack)
  | Tok.tdelim :: _, _ => none
  | Tok.tclose :: _, _ => none

/-- Embedding of `Grammar.parse` (default opener/closer/delimiter). -/
def parse (g : Grammar τ V) (s : List Char) : Option GrammaticalExpression :=
  (tokenize s).bind fun ts => parseToks g ts []

end Grammar

mutual

/-- Embedding of `GrammaticalExpression.__str__`: `name` for a leaf,
`name(child1, child2, ...)` for a node (children joined by `", "`). -/
def strOf : GrammaticalExpression → List Char
  | .leaf n => n.data
  | .node n cs => n.data ++ '(' :: (strOfList cs ++ [')'])

/-- The children of a node, printed and joined by `", "`. -/
def strOfList : List GrammaticalExpression → List Char
  | [] => []
  | [c] => strOf c
  | c :: cs => strOf c ++ ',' :: ' ' :: strOfList cs

end

mutual

/-- The token sequence the tokenizer recovers from a printed tree. -/
def toksOf : GrammaticalExpression → List Tok
  | .leaf n => [Tok.tname n.data]
  | .node n cs => Tok.topen n.data :: (toksOfList cs ++ [Tok.tclose])

/-- Tokens of a printed child list (delimiters between children). -/
def toksOfList : List GrammaticalExpression → List Tok
  | [] => []
  | [c] => toksOf c
  | c :: cs => toksOf c ++ Tok.tdelim :: toksOfList cs

end

/-- A rule name that round-trips through the tokenizer: non-empty, free of
the opener/closer/delimiter characters, no leading or trailing
whitespace. -/
def goodName (n : String) : Bool :=
  !n.data.isEmpty && n.data.all isNameChar
    && !(isWS (n.data.headD '(')) && !(isWS (n.data.getLastD '('))

mutual

/-- Every rule name in the tree is a `goodName`. -/
def namesOk : GrammaticalExpression → Bool
  | .leaf n => goodName n
  | .node n cs => goodName n && namesOkList cs

def namesOkList : List GrammaticalExpression → Bool
  | [] => true
  | c :: cs => namesOk c && namesOkList cs

end

mutual

/-- No internal node of the tree has an empty children tuple. -/
def noEmptyNodes : GrammaticalExpression → Bool
  | .leaf _ => true
  | .node _ cs => !cs.isEmpty && noEmptyNodesList cs

def noEmptyNodesList : List GrammaticalExpression → Bool
  | [] => true
  | c :: cs => noEmptyNodes c && noEmptyNodesList cs

end

mutual

/-- Every rule name in the tree resolves in `_rules_by_name`. -/
def namesRegistered (g : Grammar τ V) [DecidableEq τ] : GrammaticalExpression → Bool
  | .leaf n => (g.findRule n).isSome
  | .node n cs => (g.findRule n).isSome && namesRegisteredList g cs

def namesRegisteredList (g : Grammar τ V) [DecidableEq τ] :
    List GrammaticalExpression → Bool
  | [] => true
  | c :: cs => namesRegistered g c && namesRegisteredList g cs

end

/-- Possible results of `Grammar.generate(lhs)` (the stochastic top-down
derivation): pick any rule registered under `lhs`; a terminal rule gives
a leaf, otherwise generate one child per RHS entry.  The rule weights
only determine the probabilities of `random.choices`, not the support of
producible trees, so they do not appear here. -/
inductive Generable (g : Grammar τ V) [DecidableEq τ] : τ → GrammaticalExpression → Prop where
  | leaf : ∀ {l : τ} {r : Rule τ V}, r ∈ g.rulesFor l → r.rhs = none →
      Generable g l (.leaf r.name)
  | node : ∀ {l : τ} {r : Rule τ V} {ts : List τ} {cs : List GrammaticalExpression},
      r ∈ g.rulesFor l → r.rhs = some ts →
      List.Forall₂ (Generable g) ts cs →
      Generable g l (.node r.name cs)

/-- The well-typedness invariant of claim C9: the root rule is registered
under `lhs`, and recursively each child's root rule is registered under
the corresponding entry of the parent rule's RHS. -/
inductive WellTyped (g : Grammar τ V) [DecidableEq τ] : τ → GrammaticalExpression → Prop where
  | leaf : ∀ {l : τ} {r : Rule τ V}, r ∈ g.rulesFor l → r.rhs = none →
      WellTyped g l (.leaf r.name)
  | node : ∀ {l : τ} {r : Rule τ V} {ts : List τ} {cs : List GrammaticalExpression},
      r ∈ g.rulesFor l → r.rhs = some ts →
      List.Forall₂ (WellTyped g) ts cs →
      WellTyped g l (.node r.name cs)

/-- A function-carrying expression tree, as built by the Python
constructors (each node stores the `func` of its rule); used to state the
evaluation claims. -/
inductive FuncExpression (V : Type v) where
  | leaf (ruleName : String) (func : List V → V)
  | node (ruleName : String) (func : List V → V) (children : List (FuncExpression V))

namespace FuncExpression

mutual

/-- Embedding of `GrammaticalExpression.__call__` with a single referent
argument: a leaf applies its function to the referent, a node applies its
function to the tuple of its children's results. -/
def call : FuncExpression V → V → V
  | .leaf _ f, r => f [r]
  | .node _ f cs, r => f (callList cs r)

def callList : List (FuncExpression V) → V → List V
  | [], _ => []
  | c :: cs, r => call c r :: callList cs r

end

/-- Embedding of `GrammaticalExpression.evaluate`.  `Modelled from the
spec:` the classes `Meaning`, `Universe`, `Referent`
(`ultk.language.semantics`) and the `Expression` base class
(`ultk.language.language`) are not among the sources; per the spec an
expression carries a lazily-computed element-to-result mapping, and the
`NB` comment in `evaluate` states that `Expression.__init__` initializes
an empty meaning and that `not self.meaning` is the memoization test, so
the stored meaning is modeled as an association list whose falsiness is
emptiness.  The mutable `self.meaning` field is threaded as state:
`stored` is the field before the call, and the result is the returned
meaning paired with the field after the call. -/
def evaluate (e : FuncExpression V) (stored : List (V × V)) (u : List V) :
    List (V × V) × List (V × V) :=
  if stored.isEmpty then
    let m := u.map fun r => (r, e.call r)
    (m, m)
  else (stored, stored)

end FuncExpression

/-- A terminal rule named `f` under `S` (concrete instances use
`τ = String`, `V = Nat`). -/
def ruleF : Rule String Nat :=
  { name := "f", lhs := "S", rhs := none, func := fun _ => 0 }

/-- A one-rule grammar already containing `ruleF`, as `add_rule` builds it. -/
def gDup : Grammar String Nat :=
  { rules := [ruleF], rulesByName := [("f", ruleF)], start := "S" }

/-- A rule with an *empty* RHS tuple (as `Rule.from_callable` produces for
a zero-parameter callable): not terminal, but with no children to
enumerate. -/
def ruleEmptyRhs : Rule String Nat :=
  { name := "f", lhs := "S", rhs := some [], func := fun _ => 0 }

/-- The grammar containing only `ruleEmptyRhs`. -/
def gEmptyRhs : Grammar String Nat :=
  { rules := [ruleEmptyRhs], rulesByName := [("f", ruleEmptyRhs)], start := "S" }

/-- The signature of a type-annotated callable with zero parameters. -/
def sigZero : PySig String :=
  { funcName := "c0", params := [], ret := some "S" }

/-- The signature of a callable with one `Referent`-annotated parameter. -/
def sigTerm : PySig String :=
  { funcName := "t1", params := [{ name := "x", annot := "R", default := none }],
    ret := some "S" }

/-- The rule `Rule.from_callable` produces for `sigTerm`. -/
def ruleT : Rule String Nat :=
  { name := "t1", lhs := "S", rhs := none, func := fun _ => 0 }

/-- A printed-expression suffix as it occurs during tokenization: empty,
or starting with the closer or the delimiter. -/
def SepStart (rest : List Char) : Prop :=
  rest = [] ∨ (∃ cs, rest = ')' :: cs) ∨ (∃ cs, rest = ',' :: cs)

/-- A suffix at which a name run stops: empty or starting with a
non-name character. -/
def StopStart (rest : List Char) : Prop :=
  rest = [] ∨ ∃ c cs, rest = c :: cs ∧ isNameChar c = false

/-- The statement that a tree's printed form tokenizes, in any separating
context, to its token sequence. -/
def TokSpec (e : GrammaticalExpression) : Prop :=
  ∀ rest, SepStart rest →
    tokenize (strOf e ++ rest) = (tokenize rest).map fun ts => toksOf e ++ ts

/-- The statement that a tree's token sequence, fed to the shift/reduce
loop, simply pushes the tree. -/
def ParseSpec (g : Grammar τ V) (e : GrammaticalExpression) : Prop :=
  ∀ ts stack, g.parseToks (toksOf e ++ ts) stack = g.parseToks ts (e :: stack)

/-- A cache is valid when every entry records exactly the (non-empty)
naive enumeration of its key. -/
def MemoState.Valid (g : Grammar τ V) (s : MemoState τ) : Prop :=
  ∀ p ∈ s.cache, g.enumerateAtDepth p.1.1 p.1.2 = some p.2 ∧ p.2 ≠ []

/-- A boolean-like toy grammar: terminal `tt` and unary `nn`, both under
type `B`. -/
def ruleTT : Rule String Nat :=
  { name := "tt", lhs := "B", rhs := none, func := fun _ => 1 }

def ruleNN : Rule String Nat :=
  { name := "nn", lhs := "B", rhs := some ["B"], func := fun _ => 0 }

def gNot : Grammar String Nat :=
  { rules := [ruleTT, ruleNN],
    rulesByName := [("tt", ruleTT), ("nn", ruleNN)], start := "B" }

/-- The grammar `S → gg(T, T)` with no rules for `T`: the `(0, T)`
subproblem yields nothing and is recomputed. -/
def rulePair : Rule String Nat :=
  { name := "gg", lhs := "S", rhs := some ["T", "T"], func := fun _ => 0 }

def gPair : Grammar String Nat :=
  { rules := [rulePair], rulesByName := [("gg", rulePair)], start := "S" }

/-- The "strictly smaller size wins" compare function of the spec's
canonicalization runs: replace the stored expression exactly when the new
one has strictly smaller `len(expr)`. -/
def sizeLt (a b : GrammaticalExpression) : Bool :=
  decide (a.length < b.length)

/-- The inner dictionary `unique_dict[lhs]` (`unique_dict` is a
`defaultdict(dict)`, so an absent key reads as an empty dictionary). -/
def innerAt (ud : UniqueDict τ κ) (l : τ) : List (κ × GrammaticalExpression) :=
  (assocFind ud l).getD []

/-- The uniqueness-run invariant: every inner dictionary of
`unique_expressions` has pairwise-distinct keys, and every expression
constructed so far (accepted or rejected) has, at its `(lhs, key)` slot, a
stored expression no longer than itself. -/
def USInv (key : GrammaticalExpression → κ) (s : UniqueState τ κ) : Prop :=
  (∀ l inner, assocFind s.udict l = some inner → (inner.map Prod.fst).Nodup) ∧
  (∀ p ∈ s.constructed, ∃ e0,
    assocFind (innerAt s.udict p.1) (key p.2) = some e0 ∧
      e0.length ≤ p.2.length)

/-- Three terminal rules `a`, `b`, `c` under `S`: every candidate gets a
distinct uniqueness key under the root-name key function. -/
def ruleA : Rule String Nat :=
  { name := "a", lhs := "S", rhs := none, func := fun _ => 0 }

def ruleB : Rule String Nat :=
  { name := "b", lhs := "S", rhs := none, func := fun _ => 0 }

def ruleC : Rule String Nat :=
  { name := "c", lhs := "S", rhs := none, func := fun _ => 0 }

def gABC : Grammar String Nat :=
  { rules := [ruleA, ruleB, ruleC],
    rulesByName := [("a", ruleA), ("b", ruleB), ("c", ruleC)], start := "S" }

namespace GrammaticalExpression

theorem lengthList_eq (cs : List GrammaticalExpression) :
    lengthList cs = (cs.map length).sum := by
  induction cs with
  | nil => rfl
  | cons c cs ih => simp [lengthList, ih]

theorem depthList_eq (cs : List GrammaticalExpression) :
    depthList cs = (cs.map depth).foldr max 0 := by
  induction cs with
  | nil => rfl
  | cons c cs ih => simp [depthList, ih]

end GrammaticalExpression

theorem mem_listProd {α : Type u} {Ls : List (List α)} {xs : List α} :
    xs ∈ listProd Ls ↔ List.Forall₂ (fun x l => x ∈ l) xs Ls := by
  induction Ls generalizing xs with
  | nil =>
    simp only [listProd, List.mem_singleton]
    constructor
    · rintro rfl; exact List.Forall₂.nil
    · intro h; cases h; rfl
  | cons l Ls ih =>
    simp only [listProd, List.mem_flatMap, List.mem_map]
    constructor
    · rintro ⟨x, hx, ys, hys, rfl⟩
      exact List.Forall₂.cons hx (ih.mp hys)
    · intro h
      cases h with
      | cons hx hys => exact ⟨_, hx, _, ih.mpr hys, rfl⟩

theorem flatMapM_isSome {α : Type u} {β : Type v} {f : α → Option (List β)}
    {l : List α} (h : ∀ a ∈ l, (f a).isSome) : (flatMapM f l).isSome := by
  induction l with
  | nil => rfl
  | cons a as ih =>
    rcases Option.isSome_iff_exists.mp (h a (List.mem_cons_self a as)) with ⟨bs, hbs⟩
    rcases Option.isSome_iff_exists.mp
      (ih fun x hx => h x (List.mem_cons_of_mem a hx)) with ⟨rest, hrest⟩
    simp [flatMapM, hbs, hrest]

theorem seqOpt_isSome {α : Type u} {β : Type v} {f : α → Option β}
    {l : List α} (h : ∀ a ∈ l, (f a).isSome) : (seqOpt f l).isSome := by
  induction l with
  | nil => rfl
  | cons a as ih =>
    rcases Option.isSome_iff_exists.mp (h a (List.mem_cons_self a as)) with ⟨b, hb⟩
    rcases Option.isSome_iff_exists.mp
      (ih fun x hx => h x (List.mem_cons_of_mem a hx)) with ⟨bs, hbs⟩
    simp [seqOpt, hb, hbs]

/-- Where the members of a `flatMapM` result come from. -/
theorem mem_flatMapM {α : Type u} {β : Type v} {f : α → Option (List β)}
    {l : List α} {bs : List β} (h : flatMapM f l = some bs) :
    ∀ b ∈ bs, ∃ a ∈ l, ∃ bs', f a = some bs' ∧ b ∈ bs' := by
  induction l generalizing bs with
  | nil =>
    cases h
    intro b hb; cases hb
  | cons a as ih =>
    simp only [flatMapM] at h
    cases hfa : f a with
    | none => rw [hfa] at h; cases h
    | some cs =>
      rw [hfa] at h
      cases hrest : flatMapM f as with
      | none => rw [hrest] at h; cases h
      | some rest =>
        rw [hrest] at h
        simp only [Option.some_bind, Option.map_some', Option.some.injEq] at h
        subst h
        intro b hb
        rcases List.mem_append.mp hb with hcs | hr
        · exact ⟨a, List.mem_cons_self a as, cs, hfa, hcs⟩
        · rcases ih hrest b hr with ⟨x, hx, bs', hbs', hbmem⟩
          exact ⟨x, List.mem_cons_of_mem a hx, bs', hbs', hbmem⟩

/-- A successful `seqOpt` relates inputs to outputs pointwise. -/
theorem seqOpt_some {α : Type u} {β : Type v} {f : α → Option β}
    {l : List α} {bs : List β} (h : seqOpt f l = some bs) :
    List.Forall₂ (fun a b => f a = some b) l bs := by
  induction l generalizing bs with
  | nil => cases h; exact List.Forall₂.nil
  | cons a as ih =>
    simp only [seqOpt] at h
    cases hfa : f a with
    | none => rw [hfa] at h; cases h
    | some b =>
      rw [hfa] at h
      cases hrest : seqOpt f as with
      | none => rw [hrest] at h; cases h
      | some rest =>
        rw [hrest] at h
        simp only [Option.some_bind, Option.map_some', Option.some.injEq] at h
        subst h
        exact List.Forall₂.cons hfa (ih hrest)

/-- Compose two pointwise relations along a common middle list. -/
theorem forall₂_trans_exists {α β γ : Type*} {R : α → β → Prop} {S : β → γ → Prop}
    {as : List α} {bs : List β} {cs : List γ}
    (h1 : List.Forall₂ R as bs) (h2 : List.Forall₂ S bs cs) :
    List.Forall₂ (fun a c => ∃ b, R a b ∧ S b c) as cs := by
  induction h1 generalizing cs with
  | nil => cases h2; exact List.Forall₂.nil
  | cons hab htail ih =>
    cases h2 with
    | cons hbc h2tail => exact List.Forall₂.cons ⟨_, hab, hbc⟩ (ih h2tail)

/-- Weaken a pointwise relation using membership of both components. -/
theorem forall₂_imp_of_mem {α β : Type*} {R S : α → β → Prop}
    {as : List α} {bs : List β} (h : List.Forall₂ R as bs)
    (himp : ∀ a b, a ∈ as → b ∈ bs → R a b → S a b) : List.Forall₂ S as bs := by
  induction h with
  | nil => exact List.Forall₂.nil
  | cons hab htail ih =>
    exact List.Forall₂.cons
      (himp _ _ (List.mem_cons_self _ _) (List.mem_cons_self _ _) hab)
      (ih fun a b ha hb hr =>
        himp a b (List.mem_cons_of_mem _ ha) (List.mem_cons_of_mem _ hb) hr)

/-- Transfer a pointwise relation on a zip to its first components. -/
theorem forall₂_zip_fst {α β γ : Type*} {S : α → γ → Prop}
    {t : List α} {ts : List β} {cs : List γ}
    (h : List.Forall₂ (fun p c => S p.1 c) (t.zip ts) cs)
    (hlen : t.length ≤ ts.length) : List.Forall₂ S t cs := by
  induction t generalizing ts cs with
  | nil => cases h; exact List.Forall₂.nil
  | cons a t ih =>
    cases ts with
    | nil => simp at hlen
    | cons b ts =>
      cases h with
      | cons hab htail =>
        exact List.Forall₂.cons hab (ih htail (by simpa using Nat.le_of_succ_le_succ hlen))

/-- Transfer a pointwise relation on a zip to its second components. -/
theorem forall₂_zip_snd {α β γ : Type*} {S : β → γ → Prop}
    {t : List α} {ts : List β} {cs : List γ}
    (h : List.Forall₂ (fun p c => S p.2 c) (t.zip ts) cs)
    (hlen : ts.length ≤ t.length) : List.Forall₂ S ts cs := by
  induction ts generalizing t cs with
  | nil => cases t <;> cases h <;> exact List.Forall₂.nil
  | cons b ts ih =>
    cases t with
    | nil => simp at hlen
    | cons a t =>
      cases h with
      | cons hab htail =>
        exact List.Forall₂.cons hab (ih htail (by simpa using Nat.le_of_succ_le_succ hlen))

theorem foldr_max_le {t : List Nat} {m : Nat} (h : ∀ x ∈ t, x ≤ m) :
    t.foldr max 0 ≤ m := by
  induction t with
  | nil => exact Nat.zero_le m
  | cons a t ih =>
    simp only [List.foldr_cons]
    exact Nat.max_le.mpr ⟨h a (List.mem_cons_self _ _),
      ih fun x hx => h x (List.mem_cons_of_mem _ hx)⟩

theorem foldr_max_eq {t : List Nat} {m : Nat} (hmem : m ∈ t)
    (hub : ∀ x ∈ t, x ≤ m) : t.foldr max 0 = m := by
  induction t with
  | nil => cases hmem
  | cons a t ih =>
    simp only [List.foldr_cons]
    rcases List.mem_cons.mp hmem with rfl | hm
    · have : t.foldr max 0 ≤ m :=
        foldr_max_le fun x hx => hub x (List.mem_cons_of_mem _ hx)
      omega
    · have h1 : t.foldr max 0 = m := ih hm fun x hx => hub x (List.mem_cons_of_mem _ hx)
      have h2 : a ≤ m := hub a (List.mem_cons_self _ _)
      omega

theorem flatMapM_congr {α : Type u} {β : Type v} {f f' : α → Option (List β)}
    {l : List α} (h : ∀ a ∈ l, f a = f' a) : flatMapM f l = flatMapM f' l := by
  induction l with
  | nil => rfl
  | cons a as ih =>
    simp only [flatMapM, h a (List.mem_cons_self a as),
      ih fun x hx => h x (List.mem_cons_of_mem a hx)]

theorem seqOpt_congr {α : Type u} {β : Type v} {f f' : α → Option β}
    {l : List α} (h : ∀ a ∈ l, f a = f' a) : seqOpt f l = seqOpt f' l := by
  induction l with
  | nil => rfl
  | cons a as ih =>
    simp only [seqOpt, h a (List.mem_cons_self a as),
      ih fun x hx => h x (List.mem_cons_of_mem a hx)]

/-- Every list pointwise drawn from lists that are all equal to
`List.range k` has entries `< k`. -/
theorem lt_of_forall₂_mem_range {t : List Nat} {Ls : List (List Nat)} {k : ℕ}
    (h : List.Forall₂ (fun x l => x ∈ l) t Ls)
    (hLs : ∀ l ∈ Ls, l = List.range k) : ∀ x ∈ t, x < k := by
  induction t generalizing Ls with
  | nil => intro x hx; cases hx
  | cons a t ih =>
    cases h with
    | cons hmem htail =>
      rename_i l Ls'
      intro x hx
      rcases List.mem_cons.mp hx with rfl | hx'
      · have hl : l = List.range k := hLs l (List.mem_cons_self _ _)
        exact List.mem_range.mp (hl ▸ hmem)
      · exact ih htail (fun l hl => hLs l (List.mem_cons_of_mem _ hl)) x hx'

/-- Entries of a tuple produced from `product(range(k), repeat=n)` are `< k`. -/
theorem mem_of_mem_listProd_replicate_range {t : List Nat} {n k x : Nat}
    (ht : t ∈ listProd (List.replicate n (List.range k))) (hx : x ∈ t) :
    x < k :=
  lt_of_forall₂_mem_range (mem_listProd.mp ht)
    (fun _ hl => List.eq_of_mem_replicate hl) x hx

namespace Grammar

/-- `enumStep` only calls `rec` at child depths `< d`. -/
theorem enumStep_congr {g : Grammar τ V}
    {rec1 rec2 : Nat → τ → Option (List GrammaticalExpression)} {d : Nat}
    (h : ∀ cd, cd < d → ∀ cl, rec1 cd cl = rec2 cd cl) (l : τ) :
    enumStep g rec1 d l = enumStep g rec2 d l := by
  match d with
  | 0 => rfl
  | d'+1 =>
    simp only [enumStep]
    apply flatMapM_congr
    intro r hr
    cases r.rhs with
    | none => rfl
    | some ts =>
      apply flatMapM_congr
      intro t ht
      cases t.max? with
      | none => rfl
      | some m =>
        by_cases hm : m < d'
        · simp only [hm, if_true]
        · simp only [hm, if_false]
          congr 1
          apply seqOpt_congr
          intro p hp
          have hmem : p.1 ∈ t := (List.of_mem_zip hp).1
          exact h p.1 (mem_of_mem_listProd_replicate_range ht hmem) p.2

theorem enumAux_irrel (g : Grammar τ V) (d : Nat) :
    ∀ f1 f2, d < f1 → d < f2 → ∀ l, enumAux g f1 d l = enumAux g f2 d l := by
  induction d using Nat.strong_induction_on with
  | _ d ih =>
    intro f1 f2 h1 h2 l
    match f1, f2 with
    | a+1, b+1 =>
      show enumStep g (enumAux g a) d l = enumStep g (enumAux g b) d l
      apply enumStep_congr
      intro cd hcd cl
      exact ih cd (hcd.trans_le (Nat.le_refl d)) a b
        (lt_of_lt_of_le hcd (Nat.lt_succ_iff.mp h1))
        (lt_of_lt_of_le hcd (Nat.lt_succ_iff.mp h2)) cl

/-- The clean recursion equation for `enumerate_at_depth`. -/
theorem enumerateAtDepth_eq (g : Grammar τ V) (d : Nat) (l : τ) :
    g.enumerateAtDepth d l = enumStep g (fun cd cl => g.enumerateAtDepth cd cl) d l := by
  show enumStep g (enumAux g d) d l = _
  apply enumStep_congr
  intro cd hcd cl
  exact enumAux_irrel g cd d (cd+1) hcd (Nat.lt_succ_self cd) cl

end Grammar

/-- C6 (amended): `add_rule` raises exactly when a rule with the same
name is already in the by-name table; when it raises, the by-name table
is unchanged, but the rule has already been appended to the by-type
table. -/
theorem addRule_raises_iff_and_effects (g : Grammar τ V) (r : Rule τ V) :
    ((g.addRule r).1 = true ↔ ∃ p ∈ g.rulesByName, p.1 = r.name) ∧
    ((g.addRule r).1 = true →
      (g.addRule r).2.rulesByName = g.rulesByName ∧
      (g.addRule r).2.rules = g.rules ++ [r]) := by
  unfold Grammar.addRule
  by_cases h : g.rulesByName.any fun p => p.1 = r.name
  · rw [if_pos h]
    constructor
    · constructor
      · intro _
        rcases List.any_eq_true.mp h with ⟨p, hp, hpn⟩
        exact ⟨p, hp, of_decide_eq_true hpn⟩
      · intro _; rfl
    · intro _
      exact ⟨rfl, rfl⟩
  · rw [if_neg h]
    constructor
    · constructor
      · intro hh; cases hh
      · rintro ⟨p, hp, hpn⟩
        exact absurd (List.any_eq_true.mpr ⟨p, hp, decide_eq_true hpn⟩) h
    · intro hh
      cases hh

/-- Witness for `addRule_raises_iff_and_effects` at the duplicate
registration of `ruleF` into `gDup`. -/
theorem addRule_raises_iff_and_effects_witness :
    (gDup.addRule ruleF).2.rulesByName = gDup.rulesByName ∧
    (gDup.addRule ruleF).2.rules = gDup.rules ++ [ruleF] :=
  (addRule_raises_iff_and_effects gDup ruleF).2 rfl

/-- Counterexample to C6 as stated: registering a second rule named `f`
into `gDup` raises, yet the by-type table has grown from one rule named
`f` to two. -/
theorem addRule_counterexample :
    (gDup.addRule ruleF).1 = true ∧
    (gDup.addRule ruleF).2.rules.map Rule.name = ["f", "f"] ∧
    gDup.rules.map Rule.name = ["f"] :=
  ⟨rfl, rfl, rfl⟩

/-- C8 (amended): `Rule.from_callable` takes `lhs` from the return
annotation and `rhs` from the parameter annotations in order with the
reserved `weight` parameter removed (its default becoming the rule's
weight, which defaults to 1); `rhs` becomes the terminal marker exactly
when the remaining parameters are non-empty and all annotated with the
raw-input type — a callable with zero remaining parameters keeps an empty
RHS sequence and is NOT terminal; a callable without return annotation
fails. -/
theorem fromCallable_spec (refT : τ) (f : List V → V) (sig : PySig τ) :
    (sig.ret = none → Rule.fromCallable refT f sig = none) ∧
    (∀ r, Rule.fromCallable refT f sig = some r →
      some r.lhs = sig.ret ∧
      r.name = sig.funcName ∧
      (∀ p, (sig.params.find? fun q => q.name = "weight") = some p →
        p.default = some r.weight) ∧
      ((sig.params.any fun p => p.name = "weight") = false → r.weight = 1) ∧
      ((remainingAnnots sig ≠ [] ∧ ∀ x ∈ remainingAnnots sig, x = refT) →
        r.rhs = none ∧ r.isTerminal = true) ∧
      (¬(remainingAnnots sig ≠ [] ∧ ∀ x ∈ remainingAnnots sig, x = refT) →
        r.rhs = some (remainingAnnots sig)) ∧
      (remainingAnnots sig = [] → r.rhs = some [] ∧ r.isTerminal = false)) := by
  constructor
  · intro h
    unfold Rule.fromCallable
    rw [h]
  · intro r hr
    unfold Rule.fromCallable at hr
    cases hret : sig.ret with
    | none => rw [hret] at hr; cases hr
    | some lhs =>
      rw [hret] at hr
      simp only at hr
      have main : r.lhs = lhs ∧ r.name = sig.funcName ∧
          ((remainingAnnots sig ≠ [] ∧ ∀ x ∈ remainingAnnots sig, x = refT) →
            r.rhs = none ∧ r.isTerminal = true) ∧
          (¬(remainingAnnots sig ≠ [] ∧ ∀ x ∈ remainingAnnots sig, x = refT) →
            r.rhs = some (remainingAnnots sig)) ∧
          (remainingAnnots sig = [] → r.rhs = some [] ∧ r.isTerminal = false) ∧
          (∀ p, (sig.params.find? fun q => q.name = "weight") = some p →
            p.default = some r.weight) ∧
          ((sig.params.any fun p => p.name = "weight") = false → r.weight = 1) := by
        by_cases hw : (sig.params.any fun p => p.name = "weight") = true
        · rw [if_pos hw] at hr
          cases hfind : sig.params.find? fun q => q.name = "weight" with
          | none =>
            rcases List.any_eq_true.mp hw with ⟨p, hp, hpn⟩
            exact absurd hpn (List.find?_eq_none.mp hfind p hp)
          | some p =>
            rw [hfind] at hr
            simp only [Option.map_some', Option.getD_some] at hr
            cases hdef : p.default with
            | none => rw [hdef] at hr; cases hr
            | some w =>
              rw [hdef] at hr
              simp only [Option.some.injEq] at hr
              subst hr
              refine ⟨rfl, rfl, ?_, ?_, ?_, ?_, ?_⟩
              · intro hcond
                exact ⟨if_pos hcond, by
                  simp only [Rule.isTerminal, if_pos hcond, Option.isNone_none]⟩
              · intro hcond
                exact if_neg hcond
              · intro hnil
                have hcond : ¬(remainingAnnots sig ≠ [] ∧
                    ∀ x ∈ remainingAnnots sig, x = refT) := fun hc => hc.1 hnil
                exact ⟨by rw [if_neg hcond, hnil], by
                  simp only [Rule.isTerminal, if_neg hcond, Option.isNone_some]⟩
              · intro p2 hp2
                cases hp2
                exact hdef
              · intro hfalse
                rw [hw] at hfalse
                cases hfalse
        · rw [if_neg hw] at hr
          simp only [Option.some.injEq] at hr
          subst hr
          refine ⟨rfl, rfl, ?_, ?_, ?_, ?_, fun _ => rfl⟩
          · intro hcond
            exact ⟨if_pos hcond, by
              simp only [Rule.isTerminal, if_pos hcond, Option.isNone_none]⟩
          · intro hcond
            exact if_neg hcond
          · intro hnil
            have hcond : ¬(remainingAnnots sig ≠ [] ∧
                ∀ x ∈ remainingAnnots sig, x = refT) := fun hc => hc.1 hnil
            exact ⟨by rw [if_neg hcond, hnil], by
              simp only [Rule.isTerminal, if_neg hcond, Option.isNone_some]⟩
          · intro p2 hp2
            exact absurd
              (List.any_eq_true.mpr ⟨p2, List.mem_of_find?_eq_some hp2,
                List.find?_some hp2⟩) hw
      exact ⟨by rw [main.1], main.2.1, main.2.2.2.2.2.1, main.2.2.2.2.2.2,
        main.2.2.1, main.2.2.2.1, main.2.2.2.2.1⟩

/-- Witness for `fromCallable_spec`: the one-`Referent`-parameter callable
`sigTerm` yields the terminal rule `ruleT`. -/
theorem fromCallable_spec_witness :
    some ruleT.lhs = sigTerm.ret ∧ ruleT.name = "t1" ∧ ruleT.weight = 1 :=
  let h := (fromCallable_spec "R" (fun _ => (0 : Nat)) sigTerm).2 ruleT rfl
  ⟨h.1, h.2.1, h.2.2.2.1 rfl⟩

/-- Counterexample to C8 as stated: for the zero-parameter callable
`sigZero` every remaining parameter's type is (vacuously) the raw-input
type, yet the produced rule has `rhs = ()` (the empty sequence), not the
terminal marker, and `is_terminal()` is false. -/
theorem fromCallable_counterexample :
    (Rule.fromCallable "R" (fun _ => (0 : Nat)) sigZero).map Rule.rhs
        = some (some []) ∧
    (Rule.fromCallable "R" (fun _ => (0 : Nat)) sigZero).map Rule.isTerminal
        = some false :=
  ⟨rfl, rfl⟩

theorem length_of_mem_listProd {α : Type u} {Ls : List (List α)} {xs : List α}
    (h : xs ∈ listProd Ls) : xs.length = Ls.length :=
  (mem_listProd.mp h).length_eq

/-- Under the nonempty-RHS precondition, `enumerate_at_depth` never
raises. -/
theorem enumerateAtDepth_isSome (g : Grammar τ V)
    (hg : ∀ r ∈ g.rules, r.rhs ≠ some []) :
    ∀ d l, (g.enumerateAtDepth d l).isSome = true := by
  intro d
  induction d using Nat.strong_induction_on with
  | _ d ih =>
    intro l
    rw [Grammar.enumerateAtDepth_eq]
    match d with
    | 0 => rfl
    | d'+1 =>
      simp only [Grammar.enumStep]
      apply flatMapM_isSome
      intro r hr
      cases hrhs : r.rhs with
      | none => rfl
      | some ts =>
        apply flatMapM_isSome
        intro t ht
        have hts : ts ≠ [] := fun hnil => by
          exact hg r (List.mem_filter.mp hr).1 (by rw [hrhs, hnil])
        have htlen : t.length = ts.length := by
          rw [length_of_mem_listProd ht, List.length_replicate]
        have htne : t ≠ [] := by
          intro hnil
          rw [hnil] at htlen
          exact hts (List.eq_nil_of_length_eq_zero htlen.symm)
        cases hmax : t.max? with
        | none => exact absurd (List.max?_eq_none_iff.mp hmax) htne
        | some m =>
          dsimp only
          by_cases hm : m < d'
          · rw [if_pos hm]; rfl
          · rw [if_neg hm]
            have hseq : (seqOpt (fun p => g.enumerateAtDepth p.1 p.2) (t.zip ts)).isSome
                = true := by
              apply seqOpt_isSome
              intro p hp
              have hcd : p.1 < d'+1 :=
                mem_of_mem_listProd_replicate_range ht (List.of_mem_zip hp).1
              exact ih p.1 hcd p.2
            rcases Option.isSome_iff_exists.mp hseq with ⟨v, hv⟩
            rw [hv]
            rfl

/-- For a rule with an empty RHS sequence, `enumerate_at_depth` raises at
every depth `≥ 1` (`max(())` on the empty per-child depth tuple). -/
theorem enumerateAtDepth_gEmptyRhs_none :
    ∀ d : Nat, 1 ≤ d → gEmptyRhs.enumerateAtDepth d "S" = none := by
  intro d hd
  match d, hd with
  | d'+1, _ => rfl

/-- C10: with every non-terminal rule's RHS non-empty, `enumerate_at_depth`
never raises at any depth; the precondition is necessary: for the grammar
`gEmptyRhs`, whose only rule has RHS `()` (as `Rule.from_callable`
produces for a zero-parameter callable), every depth `≥ 1` raises on
`max(())`. -/
theorem enumerateAtDepth_totality :
    (∀ (g : Grammar τ V), (∀ r ∈ g.rules, r.rhs ≠ some []) →
      ∀ d l, (g.enumerateAtDepth d l).isSome = true) ∧
    (∀ d : Nat, 1 ≤ d → gEmptyRhs.enumerateAtDepth d "S" = none) :=
  ⟨fun g hg => enumerateAtDepth_isSome g hg, enumerateAtDepth_gEmptyRhs_none⟩

/-- Witness for `enumerateAtDepth_totality`: the terminal-only grammar
`gDup` enumerates without raising at depth 0, and `gEmptyRhs` raises at
depth 1. -/
theorem enumerateAtDepth_totality_witness :
    (gDup.enumerateAtDepth 0 "S").isSome = true ∧
    gEmptyRhs.enumerateAtDepth 1 "S" = none :=
  ⟨(@enumerateAtDepth_totality String Nat _).1 gDup (by decide) 0 "S",
   (@enumerateAtDepth_totality String Nat _).2 1 (by decide)⟩

theorem depthList_eq_foldr_of_forall₂ {t : List Nat}
    {cs : List GrammaticalExpression}
    (h : List.Forall₂ (fun x c => GrammaticalExpression.depth c = x) t cs) :
    GrammaticalExpression.depthList cs = t.foldr max 0 := by
  induction h with
  | nil => rfl
  | cons hxc htail ihh =>
    simp only [GrammaticalExpression.depthList, List.foldr_cons]
    rw [hxc, ihh]

/-- `enumerate_at_depth` at depth 0: one leaf per terminal rule. -/
theorem enumerateAtDepth_zero (g : Grammar τ V) (l : τ) :
    g.enumerateAtDepth 0 l =
      some ((g.rulesFor l).filterMap fun r =>
        if r.isTerminal then some (.leaf r.name) else none) := rfl

/-- Decomposition of a membership in a successful
`enumerate_at_depth(d'+1, lhs)`: the expression is a node over some
non-terminal rule, built from a per-child depth tuple whose maximum is
`d'`, with each child drawn from the corresponding recursive
enumeration. -/
theorem mem_enumerateAtDepth_succ {g : Grammar τ V} {d' : Nat} {l : τ}
    {es : List GrammaticalExpression} {e : GrammaticalExpression}
    (h : g.enumerateAtDepth (d'+1) l = some es) (he : e ∈ es) :
    ∃ r ∈ g.rulesFor l, ∃ ts, r.rhs = some ts ∧
      ∃ t ∈ listProd (List.replicate ts.length (List.range (d'+1))),
        ∃ m, t.max? = some m ∧ ¬ m < d' ∧
          ∃ cs, e = GrammaticalExpression.node r.name cs ∧
            List.Forall₂
              (fun p c => ∃ cl, g.enumerateAtDepth p.1 p.2 = some cl ∧ c ∈ cl)
              (t.zip ts) cs := by
  rw [Grammar.enumerateAtDepth_eq] at h
  simp only [Grammar.enumStep] at h
  rcases mem_flatMapM h e he with ⟨r, hr, bs, hbs, hebs⟩
  refine ⟨r, hr, ?_⟩
  cases hrhs : r.rhs with
  | none =>
    rw [hrhs] at hbs
    cases hbs
    cases hebs
  | some ts =>
    rw [hrhs] at hbs
    refine ⟨ts, rfl, ?_⟩
    rcases mem_flatMapM hbs e hebs with ⟨t, ht, bs2, hbs2, hebs2⟩
    refine ⟨t, ht, ?_⟩
    cases hmax : t.max? with
    | none => rw [hmax] at hbs2; cases hbs2
    | some m =>
      rw [hmax] at hbs2
      dsimp only at hbs2
      by_cases hm : m < d'
      · rw [if_pos hm] at hbs2
        cases hbs2
        cases hebs2
      · rw [if_neg hm] at hbs2
        refine ⟨m, rfl, hm, ?_⟩
        cases hseq : seqOpt (fun p => g.enumerateAtDepth p.1 p.2) (t.zip ts) with
        | none => rw [hseq] at hbs2; cases hbs2
        | some cls =>
          rw [hseq] at hbs2
          simp only [Option.map_some', Option.some.injEq] at hbs2
          subst hbs2
          rcases List.mem_map.mp hebs2 with ⟨cs, hcs, rfl⟩
          refine ⟨cs, rfl, ?_⟩
          have h1 := seqOpt_some hseq
          have h2 := (mem_listProd.mp hcs).flip
          exact forall₂_trans_exists h1 h2

/-- Every expression yielded by a successful `enumerate_at_depth(d, lhs)`
has derivation depth exactly `d`. -/
theorem enumerateAtDepth_depth (g : Grammar τ V) :
    ∀ d l es, g.enumerateAtDepth d l = some es →
      ∀ e ∈ es, e.depth = d := by
  intro d
  induction d using Nat.strong_induction_on with
  | _ d ih =>
    intro l es h e he
    match d with
    | 0 =>
      rw [enumerateAtDepth_zero] at h
      cases h
      rcases List.mem_filterMap.mp he with ⟨r, hr, hfr⟩
      by_cases hterm : r.isTerminal
      · rw [if_pos hterm] at hfr
        cases hfr
        rfl
      · rw [if_neg hterm] at hfr
        cases hfr
    | d'+1 =>
      rcases mem_enumerateAtDepth_succ h he with
        ⟨r, hr, ts, hrhs, t, ht, m, hmax, hm, cs, rfl, hforall⟩
      have hbound : ∀ x ∈ t, x < d'+1 := fun x hx =>
        mem_of_mem_listProd_replicate_range ht hx
      have hmm : m ∈ t := List.max?_mem (fun a b => max_choice a b) hmax
      have hub : ∀ x ∈ t, x ≤ m :=
        (List.max?_le_iff (fun a b c => Nat.max_le) hmax).mp (Nat.le_refl m)
      have hmd : m = d' := by
        have := hbound m hmm
        omega
      have hdepths : List.Forall₂ (fun p c => GrammaticalExpression.depth c = p.1)
          (t.zip ts) cs := by
        apply forall₂_imp_of_mem hforall
        rintro p c hp hc ⟨cl, hcl, hccl⟩
        have hlt : p.1 < d'+1 := hbound p.1 (List.of_mem_zip hp).1
        exact ih p.1 hlt p.2 cl hcl c hccl
      have hlen : t.length = ts.length := by
        rw [length_of_mem_listProd ht, List.length_replicate]
      have hfst : List.Forall₂ (fun x c => GrammaticalExpression.depth c = x) t cs :=
        forall₂_zip_fst hdepths (Nat.le_of_eq hlen)
      have hdl : GrammaticalExpression.depthList cs = t.foldr max 0 :=
        depthList_eq_foldr_of_forall₂ hfst
      have hfold : t.foldr max 0 = m := foldr_max_eq hmm hub
      show 1 + GrammaticalExpression.depthList cs = d' + 1
      rw [hdl, hfold, hmd]
      omega

/-- A non-empty list of trees contains one attaining the maximum depth. -/
theorem depthList_attained {cs : List GrammaticalExpression} (hne : cs ≠ []) :
    ∃ c ∈ cs, c.depth = GrammaticalExpression.depthList cs := by
  induction cs with
  | nil => exact absurd rfl hne
  | cons c cs ih =>
    cases cs with
    | nil =>
      refine ⟨c, List.mem_cons_self _ _, ?_⟩
      simp [GrammaticalExpression.depthList]
    | cons c2 cs2 =>
      rcases max_choice c.depth (GrammaticalExpression.depthList (c2 :: cs2)) with h | h
      · exact ⟨c, List.mem_cons_self _ _, h.symm⟩
      · rcases ih (by simp) with ⟨c3, hc3, hd3⟩
        exact ⟨c3, List.mem_cons_of_mem _ hc3,
          by rw [hd3]; exact h.symm⟩

/-- C4: under the nonempty-RHS precondition, every expression yielded by a
successful `enumerate_at_depth(d, lhs)` has maximum root-to-leaf edge
count exactly `d` (so none of true depth `< d` is ever yielded); depth 0
yields exactly one leaf per terminal rule under `lhs`, and at depth `> 0`
at least one child has depth exactly `d - 1`. -/
theorem enumerateAtDepth_depth_exact (g : Grammar τ V)
    (hg : ∀ r ∈ g.rules, r.rhs ≠ some []) :
    ∀ d l es, g.enumerateAtDepth d l = some es →
      (∀ e ∈ es, e.depth = d) ∧
      (d = 0 → es = (g.rulesFor l).filterMap fun r =>
        if r.isTerminal then some (.leaf r.name) else none) ∧
      (∀ n cs, GrammaticalExpression.node n cs ∈ es → 0 < d →
        ∃ c ∈ cs, c.depth = d - 1) := by
  intro d l es h
  refine ⟨enumerateAtDepth_depth g d l es h, ?_, ?_⟩
  · rintro rfl
    rw [enumerateAtDepth_zero] at h
    exact (Option.some.injEq _ _ ▸ h).symm
  · intro n cs hmem hpos
    match d, hpos with
    | d'+1, _ =>
      rcases mem_enumerateAtDepth_succ h hmem with
        ⟨r, hr, ts, hrhs, t, ht, m, hmax, hm, cs2, heq, hforall⟩
      injection heq with hname hcseq
      subst hcseq
      have hde : (GrammaticalExpression.node n cs).depth = d'+1 :=
        enumerateAtDepth_depth g (d'+1) l es h _ hmem
      have hdl : GrammaticalExpression.depthList cs = d' := by
        have : 1 + GrammaticalExpression.depthList cs = d'+1 := hde
        omega
      have htne : t ≠ [] := fun hnil => by
        rw [hnil] at hmax
        cases hmax
      have hlen : t.length = ts.length := by
        rw [length_of_mem_listProd ht, List.length_replicate]
      have hcslen : cs.length = (t.zip ts).length := hforall.length_eq.symm
      have hcne : cs ≠ [] := by
        intro hnil
        rw [hnil] at hcslen
        simp only [List.length_nil] at hcslen
        have hz : (t.zip ts).length = min t.length ts.length := List.length_zip _ _
        have : t.length = 0 := by omega
        exact htne (List.eq_nil_of_length_eq_zero this)
      rcases depthList_attained hcne with ⟨c, hc, hcd⟩
      exact ⟨c, hc, by rw [hcd, hdl]; omega⟩

/-- Witness for `enumerateAtDepth_depth_exact` on the concrete grammar
`gDup` at depth 0. -/
theorem enumerateAtDepth_depth_exact_witness :
    (GrammaticalExpression.leaf "f").depth = 0 :=
  (enumerateAtDepth_depth_exact gDup (by decide) 0 "S"
    [GrammaticalExpression.leaf "f"] (by decide)).1 _ (by decide)

/-- Every tree has length at least 1. -/
theorem length_pos (e : GrammaticalExpression) : 1 ≤ e.length := by
  cases e with
  | leaf n => exact Nat.le_refl 1
  | node n cs => exact Nat.le_add_right 1 _

/-- A member of a list of trees is no longer than the list's total
length. -/
theorem length_le_lengthList {c : GrammaticalExpression}
    {cs : List GrammaticalExpression} (hc : c ∈ cs) :
    c.length ≤ GrammaticalExpression.lengthList cs := by
  induction cs with
  | nil => cases hc
  | cons c2 cs ih =>
    simp only [GrammaticalExpression.lengthList]
    rcases List.mem_cons.mp hc with rfl | hc2
    · exact Nat.le_add_right _ _
    · exact Nat.le_trans (ih hc2) (Nat.le_add_left _ _)

/-- Everything yielded by `enumerate_at_depth` is a possible output of
`generate` at the same `lhs`. -/
theorem enum_mem_generable (g : Grammar τ V) :
    ∀ d l es, g.enumerateAtDepth d l = some es →
      ∀ e ∈ es, Generable g l e := by
  intro d
  induction d using Nat.strong_induction_on with
  | _ d ih =>
    intro l es h e he
    match d with
    | 0 =>
      rw [enumerateAtDepth_zero] at h
      cases h
      rcases List.mem_filterMap.mp he with ⟨r, hr, hfr⟩
      by_cases hterm : r.isTerminal
      · rw [if_pos hterm] at hfr
        cases hfr
        exact Generable.leaf hr (Option.isNone_iff_eq_none.mp hterm)
      · rw [if_neg hterm] at hfr
        cases hfr
    | d'+1 =>
      rcases mem_enumerateAtDepth_succ h he with
        ⟨r, hr, ts, hrhs, t, ht, m, hmax, hm, cs, rfl, hforall⟩
      refine Generable.node hr hrhs ?_
      have hlen : t.length = ts.length := by
        rw [length_of_mem_listProd ht, List.length_replicate]
      have hchild : List.Forall₂ (fun p c => Generable g p.2 c) (t.zip ts) cs := by
        apply forall₂_imp_of_mem hforall
        rintro p c hp hc ⟨cl, hcl, hccl⟩
        have hlt : p.1 < d'+1 :=
          mem_of_mem_listProd_replicate_range ht (List.of_mem_zip hp).1
        exact ih p.1 hlt p.2 cl hcl c hccl
      exact forall₂_zip_snd hchild (Nat.le_of_eq hlen.symm)

/-- Any possible output of `generate` is well-typed. -/
theorem generable_wellTyped (g : Grammar τ V) :
    ∀ e l, Generable g l e → WellTyped g l e := by
  have H : ∀ n (e : GrammaticalExpression), e.length ≤ n →
      ∀ l, Generable g l e → WellTyped g l e := by
    intro n
    induction n with
    | zero =>
      intro e he
      exact absurd (Nat.le_trans (length_pos e) he) (by omega)
    | succ n ihn =>
      intro e he l hgen
      cases hgen with
      | leaf hr hrhs => exact WellTyped.leaf hr hrhs
      | node hr hrhs hforall =>
        refine WellTyped.node hr hrhs ?_
        apply forall₂_imp_of_mem hforall
        intro t c htm hcm hgc
        apply ihn c ?_ t hgc
        have h1 := length_le_lengthList hcm
        have h2 : GrammaticalExpression.length
            (GrammaticalExpression.node _ _) ≤ n + 1 := he
        simp only [GrammaticalExpression.length] at h2
        omega
  exact fun e l hgen => H e.length e (Nat.le_refl _) l hgen

/-- C9: every expression yielded by `enumerate_at_depth(d, lhs)` and
every possible output of `generate(lhs)` is well-typed: its root rule is
registered under `lhs` and, recursively, each child's root rule is
registered under the corresponding entry of the parent rule's RHS. -/
theorem enumeration_generation_well_typed (g : Grammar τ V) :
    (∀ d l es, g.enumerateAtDepth d l = some es →
      ∀ e ∈ es, WellTyped g l e) ∧
    (∀ l e, Generable g l e → WellTyped g l e) :=
  ⟨fun d l es h e he => generable_wellTyped g e l (enum_mem_generable g d l es h e he),
   fun l e hgen => generable_wellTyped g e l hgen⟩

/-- Witness for `enumeration_generation_well_typed` on the concrete
grammar `gDup` at depth 0. -/
theorem enumeration_generation_well_typed_witness :
    WellTyped gDup "S" (GrammaticalExpression.leaf "f") :=
  (enumeration_generation_well_typed gDup).1 0 "S"
    [GrammaticalExpression.leaf "f"] (by decide) _ (by decide)

theorem sepStart_stopStart {rest : List Char} (h : SepStart rest) :
    StopStart rest := by
  rcases h with rfl | ⟨cs, rfl⟩ | ⟨cs, rfl⟩
  · exact Or.inl rfl
  · exact Or.inr ⟨')', cs, rfl, by decide⟩
  · exact Or.inr ⟨',', cs, rfl, by decide⟩

theorem option_map_congr {α : Type u} {β : Type v} {o : Option α}
    {f g : α → β} (h : ∀ a, f a = g a) : o.map f = o.map g := by
  cases o with
  | none => rfl
  | some a => simp only [Option.map_some', h a]

/-- A maximal name run: `takeWhile`/`dropWhile` split an all-name-chars
prefix exactly at a stopping suffix. -/
theorem name_run_split {xs rest : List Char}
    (hall : ∀ c ∈ xs, isNameChar c = true) (hstop : StopStart rest) :
    (xs ++ rest).takeWhile isNameChar = xs ∧
    (xs ++ rest).dropWhile isNameChar = rest := by
  induction xs with
  | nil =>
    simp only [List.nil_append]
    rcases hstop with rfl | ⟨c, cs, rfl, hc⟩
    · exact ⟨rfl, rfl⟩
    · exact ⟨by simp [List.takeWhile_cons, hc], by simp [List.dropWhile_cons, hc]⟩
  | cons x xs ih =>
    have hx : isNameChar x = true := hall x (List.mem_cons_self _ _)
    have htail := ih fun c hc => hall c (List.mem_cons_of_mem _ hc)
    simp only [List.cons_append, List.takeWhile_cons, List.dropWhile_cons, hx,
      if_true, htail.1, htail.2]
    constructor <;> trivial

/-- `dropWhile` is the identity when the head fails the predicate. -/
theorem dropWhile_eq_self_of_head {p : Char → Bool} {xs : List Char}
    (h : ∀ c, xs.head? = some c → p c = false) : xs.dropWhile p = xs := by
  cases xs with
  | nil => rfl
  | cons c cs => simp [List.dropWhile_cons, h c rfl]

/-- `str.strip()` is the identity on a string with no leading or trailing
whitespace. -/
theorem pstrip_eq_self {xs : List Char}
    (hh : ∀ c, xs.head? = some c → isWS c = false)
    (hl : ∀ c, xs.getLast? = some c → isWS c = false) :
    pstrip xs = xs := by
  unfold pstrip
  rw [dropWhile_eq_self_of_head hh]
  rw [dropWhile_eq_self_of_head (fun c hc => hl c (by rwa [← List.head?_reverse]))]
  exact List.reverse_reverse xs

/-- Unpack `goodName`. -/
theorem goodName_spec {n : String} (h : goodName n = true) :
    n.data ≠ [] ∧ (∀ c ∈ n.data, isNameChar c = true) ∧
    (∀ c, n.data.head? = some c → isWS c = false) ∧
    (∀ c, n.data.getLast? = some c → isWS c = false) := by
  unfold goodName at h
  simp only [Bool.and_eq_true, Bool.not_eq_true'] at h
  obtain ⟨⟨⟨hne, hall⟩, hh⟩, hl⟩ := h
  refine ⟨by simpa [List.isEmpty_iff] using hne, ?_, ?_, ?_⟩
  · exact fun c hc => List.all_eq_true.mp hall c hc
  · intro c hc
    have : n.data.headD '(' = c := by
      rw [List.headD_eq_head?, hc]
      rfl
    rwa [this] at hh
  · intro c hc
    have : n.data.getLastD '(' = c := by
      rw [List.getLastD_eq_getLast?, hc]
      rfl
    rwa [this] at hl

theorem namesOkList_forall {cs : List GrammaticalExpression} :
    namesOkList cs = true ↔ ∀ c ∈ cs, namesOk c = true := by
  induction cs with
  | nil => simp [namesOkList]
  | cons c cs ih => simp [namesOkList, ih, List.forall_mem_cons]

theorem noEmptyNodesList_forall {cs : List GrammaticalExpression} :
    noEmptyNodesList cs = true ↔ ∀ c ∈ cs, noEmptyNodes c = true := by
  induction cs with
  | nil => simp [noEmptyNodesList]
  | cons c cs ih => simp [noEmptyNodesList, ih, List.forall_mem_cons]

theorem namesRegisteredList_forall {g : Grammar τ V}
    {cs : List GrammaticalExpression} :
    namesRegisteredList g cs = true ↔ ∀ c ∈ cs, namesRegistered g c = true := by
  induction cs with
  | nil => simp [namesRegisteredList]
  | cons c cs ih => simp [namesRegisteredList, ih, List.forall_mem_cons]

theorem forall₂_mem_right {α β : Type*} {R : α → β → Prop}
    {as : List α} {bs : List β} (h : List.Forall₂ R as bs) {b : β}
    (hb : b ∈ bs) : ∃ a ∈ as, R a b := by
  induction h with
  | nil => cases hb
  | cons hab htail ih =>
    rcases List.mem_cons.mp hb with rfl | hb2
    · exact ⟨_, List.mem_cons_self _ _, hab⟩
    · rcases ih hb2 with ⟨a, ha, har⟩
      exact ⟨a, List.mem_cons_of_mem _ ha, har⟩

/-- A printed tree starts with the (non-whitespace, name-character) first
character of its root rule name. -/
theorem strOf_head (e : GrammaticalExpression) (hn : namesOk e = true) :
    ∃ c cs, strOf e = c :: cs ∧ isNameChar c = true ∧ isWS c = false := by
  cases e with
  | leaf n =>
    have hg : goodName n = true := hn
    obtain ⟨hne, hall, hh, _⟩ := goodName_spec hg
    cases hd : n.data with
    | nil => exact absurd hd hne
    | cons c cs =>
      exact ⟨c, cs, by simp [strOf, hd], hall c (by rw [hd]; exact List.mem_cons_self _ _),
        hh c (by rw [hd]; rfl)⟩
  | node n cs =>
    have hg : goodName n = true := by
      have h2 : (goodName n && namesOkList cs) = true := hn
      cases hgn : goodName n
      · rw [hgn] at h2; cases h2
      · rfl
    obtain ⟨hne, hall, hh, _⟩ := goodName_spec hg
    cases hd : n.data with
    | nil => exact absurd hd hne
    | cons c cs2 =>
      refine ⟨c, cs2 ++ '(' :: (strOfList cs ++ [')']), ?_,
        hall c (by rw [hd]; exact List.mem_cons_self _ _),
        hh c (by rw [hd]; rfl)⟩
      simp [strOf, hd]

/-- Tokenizing a good bare name followed by a separator. -/
theorem tokenize_name {n : String} (hg : goodName n = true) {rest : List Char}
    (hsep : SepStart rest) :
    tokenize (n.data ++ rest) = (tokenize rest).map fun ts => Tok.tname n.data :: ts := by
  obtain ⟨hne, hall, hh, hl⟩ := goodName_spec hg
  cases hd : n.data with
  | nil => exact absurd hd hne
  | cons c cs =>
    rw [hd] at hall hh hl
    have hsplit := name_run_split hall (sepStart_stopStart hsep)
    rw [List.cons_append] at hsplit ⊢
    have hcname : isNameChar c = true := hall c (List.mem_cons_self _ _)
    have hc1 : ¬ c = ')' := by
      intro h; rw [h] at hcname; simp [isNameChar] at hcname
    have hc2 : ¬ c = ',' := by
      intro h; rw [h] at hcname; simp [isNameChar] at hcname
    have hc3 : ¬ c = '(' := by
      intro h; rw [h] at hcname; simp [isNameChar] at hcname
    rw [tokenize.eq_def]
    dsimp only
    rw [if_neg hc1, if_neg hc2, if_neg hc3]
    split
    · rename_i heq
      rw [hsplit.2] at heq
      rcases hsep with rfl | ⟨cs2, rfl⟩ | ⟨cs2, rfl⟩
      · cases heq
      · simp at heq
      · simp at heq
    · rw [hsplit.1, hsplit.2]
      rw [pstrip_eq_self hh hl]
      rw [if_neg (by simp)]

/-- Tokenizing a good name directly followed by the opener. -/
theorem tokenize_name_open {n : String} (hg : goodName n = true)
    (tail : List Char) :
    tokenize (n.data ++ '(' :: tail) =
      (tokenize tail).map fun ts => Tok.topen n.data :: ts := by
  obtain ⟨hne, hall, hh, hl⟩ := goodName_spec hg
  cases hd : n.data with
  | nil => exact absurd hd hne
  | cons c cs =>
    rw [hd] at hall hh hl
    have hstop : StopStart ('(' :: tail) := Or.inr ⟨'(', tail, rfl, by decide⟩
    have hsplit := name_run_split hall hstop
    rw [List.cons_append] at hsplit ⊢
    have hcname : isNameChar c = true := hall c (List.mem_cons_self _ _)
    have hc1 : ¬ c = ')' := by
      intro h; rw [h] at hcname; simp [isNameChar] at hcname
    have hc2 : ¬ c = ',' := by
      intro h; rw [h] at hcname; simp [isNameChar] at hcname
    have hc3 : ¬ c = '(' := by
      intro h; rw [h] at hcname; simp [isNameChar] at hcname
    rw [tokenize.eq_def]
    dsimp only
    rw [if_neg hc1, if_neg hc2, if_neg hc3]
    split
    · rename_i heq
      rw [hsplit.2] at heq
      injection heq with h1 h2
      subst h2
      rw [hsplit.1]
      rw [dropWhile_eq_self_of_head hh]
    · rename_i hnotopen
      exact absurd hsplit.2 (hnotopen tail)

theorem tokenize_close (rest : List Char) :
    tokenize (')' :: rest) = (tokenize rest).map fun ts => Tok.tclose :: ts := by
  rw [tokenize.eq_def]
  dsimp only
  rw [if_pos rfl]

theorem tokenize_delim (X : List Char) :
    tokenize (',' :: X) =
      (tokenize (X.dropWhile isWS)).map fun ts => Tok.tdelim :: ts := by
  rw [tokenize.eq_def]
  dsimp only
  rw [if_neg (by decide), if_pos rfl]

/-- The printed form of a non-empty child list starts with a
non-whitespace character. -/
theorem strOfList_head {c2 : GrammaticalExpression}
    {cs2 : List GrammaticalExpression} (hn : namesOk c2 = true) :
    ∃ ch t, strOfList (c2 :: cs2) = ch :: t ∧ isWS ch = false := by
  rcases strOf_head c2 hn with ⟨ch, t, hs, _, hws⟩
  cases cs2 with
  | nil => exact ⟨ch, t, by simp [strOfList, hs], hws⟩
  | cons c3 cs3 =>
    exact ⟨ch, t ++ ',' :: ' ' :: strOfList (c3 :: cs3),
      by simp [strOfList, hs], hws⟩

/-- Tokenizing a printed child list followed by the closer. -/
theorem tokenize_strOfList {cs : List GrammaticalExpression} (hne : cs ≠ [])
    (hmem : ∀ c ∈ cs, namesOk c = true ∧ TokSpec c) :
    ∀ rest, tokenize (strOfList cs ++ ')' :: rest) =
      (tokenize rest).map fun ts => toksOfList cs ++ (Tok.tclose :: ts) := by
  induction cs with
  | nil => exact absurd rfl hne
  | cons c cs ih =>
    intro rest
    rcases hmem c (List.mem_cons_self _ _) with ⟨hnc, hspec⟩
    cases cs with
    | nil =>
      have h1 : strOfList [c] = strOf c := rfl
      rw [h1, hspec (')' :: rest) (Or.inr (Or.inl ⟨rest, rfl⟩)),
        tokenize_close]
      cases tokenize rest <;> simp [toksOfList]
    | cons c2 cs2 =>
      have h1 : strOfList (c :: c2 :: cs2) ++ ')' :: rest =
          strOf c ++ (',' :: ' ' :: (strOfList (c2 :: cs2) ++ ')' :: rest)) := by
        simp [strOfList, List.append_assoc]
      rw [h1, hspec _ (Or.inr (Or.inr ⟨_, rfl⟩)), tokenize_delim]
      have hws : (' ' :: (strOfList (c2 :: cs2) ++ ')' :: rest)).dropWhile isWS =
          strOfList (c2 :: cs2) ++ ')' :: rest := by
        rw [List.dropWhile_cons]
        rw [if_pos (by decide)]
        apply dropWhile_eq_self_of_head
        intro ch hch
        rcases strOfList_head (hmem c2 (List.mem_cons_of_mem _ (List.mem_cons_self _ _))).1
          with ⟨ch2, t2, hs2, hws2⟩
        rw [hs2] at hch
        simp only [List.cons_append, List.head?_cons, Option.some.injEq] at hch
        rwa [← hch]
      rw [hws]
      rw [ih (by simp) (fun x hx => hmem x (List.mem_cons_of_mem _ hx)) rest]
      cases tokenize rest <;> simp [toksOfList]

/-- The printed form of a good tree tokenizes to its token sequence. -/
theorem tokenize_strOf_spec :
    ∀ n (e : GrammaticalExpression), e.length ≤ n → namesOk e = true →
      noEmptyNodes e = true → TokSpec e := by
  intro n
  induction n with
  | zero =>
    intro e he
    exact absurd (Nat.le_trans (length_pos e) he) (by omega)
  | succ n ihn =>
    intro e he hn hno rest hsep
    cases e with
    | leaf n0 => exact tokenize_name hn hsep
    | node n0 cs =>
      have hgood : goodName n0 = true := by
        have h2 : (goodName n0 && namesOkList cs) = true := hn
        cases hgn : goodName n0
        · rw [hgn] at h2; cases h2
        · rfl
      have hlist : namesOkList cs = true := by
        have h2 : (goodName n0 && namesOkList cs) = true := hn
        cases hgn : namesOkList cs
        · rw [hgn, Bool.and_false] at h2; cases h2
        · rfl
      have hnelist : noEmptyNodesList cs = true := by
        have h2 : (!cs.isEmpty && noEmptyNodesList cs) = true := hno
        cases hgn : noEmptyNodesList cs
        · rw [hgn, Bool.and_false] at h2; cases h2
        · rfl
      have hne : cs ≠ [] := by
        have h2 : (!cs.isEmpty && noEmptyNodesList cs) = true := hno
        cases hcs : cs.isEmpty
        · exact fun hnil => by rw [hnil] at hcs; cases hcs
        · rw [hcs] at h2; cases h2
      have hmem : ∀ c ∈ cs, namesOk c = true ∧ TokSpec c := by
        intro c hc
        refine ⟨namesOkList_forall.mp hlist c hc, ?_⟩
        apply ihn c ?_ (namesOkList_forall.mp hlist c hc)
          (noEmptyNodesList_forall.mp hnelist c hc)
        have h1 := length_le_lengthList hc
        have h2 : GrammaticalExpression.length (.node n0 cs) ≤ n + 1 := he
        simp only [GrammaticalExpression.length] at h2
        omega
      have harr : strOf (.node n0 cs) ++ rest =
          n0.data ++ '(' :: (strOfList cs ++ ')' :: rest) := by
        simp [strOf, List.append_assoc]
      rw [harr, tokenize_name_open hgood, tokenize_strOfList hne hmem rest]
      cases tokenize rest <;> simp [toksOf]

/-- Consuming a printed child list plus the closing token attaches the
children, in order, to the node below. -/
theorem parseToks_toksOfList {g : Grammar τ V}
    {cs : List GrammaticalExpression} (hne : cs ≠ [])
    (hmem : ∀ c ∈ cs, ParseSpec g c) :
    ∀ (n : String) (acc : List GrammaticalExpression) ts stack,
      g.parseToks ((toksOfList cs ++ [Tok.tclose]) ++ ts)
        (GrammaticalExpression.node n acc :: stack) =
      g.parseToks ts (GrammaticalExpression.node n (acc ++ cs) :: stack) := by
  induction cs with
  | nil => exact absurd rfl hne
  | cons c cs ih =>
    intro n acc ts stack
    cases cs with
    | nil =>
      have h1 : (toksOfList [c] ++ [Tok.tclose]) ++ ts = toksOf c ++ (Tok.tclose :: ts) := by
        simp [toksOfList]
      rw [h1, hmem c (List.mem_cons_self _ _)]
      show g.parseToks ts (addChild (GrammaticalExpression.node n acc) c :: stack) = _
      simp [addChild]
    | cons c2 cs2 =>
      have h1 : (toksOfList (c :: c2 :: cs2) ++ [Tok.tclose]) ++ ts =
          toksOf c ++ (Tok.tdelim :: ((toksOfList (c2 :: cs2) ++ [Tok.tclose]) ++ ts)) := by
        simp [toksOfList]
      rw [h1, hmem c (List.mem_cons_self _ _)]
      show g.parseToks ((toksOfList (c2 :: cs2) ++ [Tok.tclose]) ++ ts)
          (addChild (GrammaticalExpression.node n acc) c :: stack) = _
      have h2 : addChild (GrammaticalExpression.node n acc) c =
          GrammaticalExpression.node n (acc ++ [c]) := rfl
      rw [h2, ih (by simp) (fun x hx => hmem x (List.mem_cons_of_mem _ hx))]
      simp

/-- The token sequence of a registered tree pushes the tree. -/
theorem parseToks_spec (g : Grammar τ V) :
    ∀ n (e : GrammaticalExpression), e.length ≤ n →
      namesRegistered g e = true → noEmptyNodes e = true → ParseSpec g e := by
  intro n
  induction n with
  | zero =>
    intro e he
    exact absurd (Nat.le_trans (length_pos e) he) (by omega)
  | succ n ihn =>
    intro e he hreg hno ts stack
    cases e with
    | leaf n0 =>
      have hfound : (g.findRule n0).isSome = true := hreg
      rcases Option.isSome_iff_exists.mp hfound with ⟨r, hr⟩
      show g.parseToks (Tok.tname n0.data :: ts) stack = _
      rw [Grammar.parseToks]
      have hmk : String.mk n0.data = n0 := rfl
      rw [hmk, hr]
    | node n0 cs =>
      have hfound : (g.findRule n0).isSome = true := by
        have h2 : ((g.findRule n0).isSome && namesRegisteredList g cs) = true := hreg
        cases hgn : (g.findRule n0).isSome
        · rw [hgn] at h2; cases h2
        · rfl
      have hlist : namesRegisteredList g cs = true := by
        have h2 : ((g.findRule n0).isSome && namesRegisteredList g cs) = true := hreg
        cases hgn : namesRegisteredList g cs
        · rw [hgn, Bool.and_false] at h2; cases h2
        · rfl
      have hnelist : noEmptyNodesList cs = true := by
        have h2 : (!cs.isEmpty && noEmptyNodesList cs) = true := hno
        cases hgn : noEmptyNodesList cs
        · rw [hgn, Bool.and_false] at h2; cases h2
        · rfl
      have hne : cs ≠ [] := by
        have h2 : (!cs.isEmpty && noEmptyNodesList cs) = true := hno
        cases hcs : cs.isEmpty
        · exact fun hnil => by rw [hnil] at hcs; cases hcs
        · rw [hcs] at h2; cases h2
      have hmem : ∀ c ∈ cs, ParseSpec g c := by
        intro c hc
        apply ihn c ?_ (namesRegisteredList_forall.mp hlist c hc)
          (noEmptyNodesList_forall.mp hnelist c hc)
        have h1 := length_le_lengthList hc
        have h2 : GrammaticalExpression.length (.node n0 cs) ≤ n + 1 := he
        simp only [GrammaticalExpression.length] at h2
        omega
      rcases Option.isSome_iff_exists.mp hfound with ⟨r, hr⟩
      have h1 : toksOf (.node n0 cs) ++ ts =
          Tok.topen n0.data :: ((toksOfList cs ++ [Tok.tclose]) ++ ts) := by
        simp [toksOf]
      rw [h1, Grammar.parseToks]
      have hmk : String.mk n0.data = n0 := rfl
      rw [hmk, hr]
      rw [parseToks_toksOfList hne hmem]
      simp

/-- Round trip for one good, registered tree. -/
theorem parse_strOf (g : Grammar τ V) {e : GrammaticalExpression}
    (hn : namesOk e = true) (hno : noEmptyNodes e = true)
    (hreg : namesRegistered g e = true) :
    g.parse (strOf e) = some e := by
  unfold Grammar.parse
  have htok : tokenize (strOf e) = some (toksOf e) := by
    have h := tokenize_strOf_spec e.length e (Nat.le_refl _) hn hno [] (Or.inl rfl)
    rw [List.append_nil] at h
    rw [h]
    simp [tokenize]
  rw [htok]
  show g.parseToks (toksOf e) [] = some e
  have h2 := parseToks_spec g e.length e (Nat.le_refl _) hreg hno [] []
  rw [List.append_nil] at h2
  rw [h2]
  rfl

/-- Any possible `generate` output over a grammar with good registered
names and non-empty RHS sequences is a good, registered tree. -/
theorem generable_props (g : Grammar τ V)
    (hnames : ∀ r ∈ g.rules, goodName r.name = true)
    (hreg : ∀ r ∈ g.rules, (g.findRule r.name).isSome = true)
    (hrhs : ∀ r ∈ g.rules, r.rhs ≠ some []) :
    ∀ e l, Generable g l e →
      namesOk e = true ∧ noEmptyNodes e = true ∧ namesRegistered g e = true := by
  have H : ∀ n (e : GrammaticalExpression), e.length ≤ n → ∀ l, Generable g l e →
      namesOk e = true ∧ noEmptyNodes e = true ∧ namesRegistered g e = true := by
    intro n
    induction n with
    | zero =>
      intro e he
      exact absurd (Nat.le_trans (length_pos e) he) (by omega)
    | succ n ihn =>
      intro e he l hgen
      cases hgen with
      | leaf hr hrrhs =>
        rename_i r
        have hrules : r ∈ g.rules := (List.mem_filter.mp hr).1
        exact ⟨hnames r hrules, rfl, hreg r hrules⟩
      | node hr hrrhs hforall =>
        rename_i r ts cs
        have hrules : r ∈ g.rules := (List.mem_filter.mp hr).1
        have hchild : ∀ c ∈ cs,
            namesOk c = true ∧ noEmptyNodes c = true ∧ namesRegistered g c = true := by
          intro c hc
          rcases forall₂_mem_right hforall hc with ⟨t, ht, hgc⟩
          apply ihn c ?_ t hgc
          have h1 := length_le_lengthList hc
          have h2 : GrammaticalExpression.length (.node r.name cs) ≤ n + 1 := he
          simp only [GrammaticalExpression.length] at h2
          omega
        have hcsne : cs ≠ [] := by
          intro hnil
          have hts : ts = [] := by
            have := hforall.length_eq
            rw [hnil] at this
            exact List.eq_nil_of_length_eq_zero this
          exact hrhs r hrules (by rw [hrrhs, hts])
        refine ⟨?_, ?_, ?_⟩
        · show (goodName r.name && namesOkList cs) = true
          rw [hnames r hrules, namesOkList_forall.mpr fun c hc => (hchild c hc).1]
          rfl
        · show (!cs.isEmpty && noEmptyNodesList cs) = true
          have hie : cs.isEmpty = false := by
            cases cs with
            | nil => exact absurd rfl hcsne
            | cons _ _ => rfl
          rw [hie, noEmptyNodesList_forall.mpr fun c hc => (hchild c hc).2.1]
          rfl
        · show ((g.findRule r.name).isSome && namesRegisteredList g cs) = true
          rw [hreg r hrules,
            namesRegisteredList_forall.mpr fun c hc => (hchild c hc).2.2]
          rfl
  exact fun e l hgen => H e.length e (Nat.le_refl _) l hgen

/-- C5 (amended): over a grammar whose rule names are non-empty, contain
no opener/closer/delimiter characters and no leading or trailing
whitespace, are all registered in the by-name table, and whose
non-terminal rules all have non-empty RHS, `parse(str(e))` reproduces
`e` exactly for every expression producible by `generate` and for every
expression yielded by `enumerate_at_depth`. -/
theorem parse_roundtrip (g : Grammar τ V)
    (hnames : ∀ r ∈ g.rules, goodName r.name = true)
    (hreg : ∀ r ∈ g.rules, (g.findRule r.name).isSome = true)
    (hrhs : ∀ r ∈ g.rules, r.rhs ≠ some []) :
    (∀ l e, Generable g l e → g.parse (strOf e) = some e) ∧
    (∀ d l es, g.enumerateAtDepth d l = some es → ∀ e ∈ es,
      g.parse (strOf e) = some e) := by
  have H : ∀ l e, Generable g l e → g.parse (strOf e) = some e := by
    intro l e hgen
    rcases generable_props g hnames hreg hrhs e l hgen with ⟨h1, h2, h3⟩
    exact parse_strOf g h1 h2 h3
  exact ⟨H, fun d l es h e he => H l e (enum_mem_generable g d l es h e he)⟩

/-- Witness for `parse_roundtrip`: `nn(tt)` round-trips over `gNot`. -/
theorem parse_roundtrip_witness :
    gNot.parse (strOf (GrammaticalExpression.node "nn"
      [GrammaticalExpression.leaf "tt"])) =
    some (GrammaticalExpression.node "nn" [GrammaticalExpression.leaf "tt"]) := by
  have hgen : Generable gNot "B"
      (GrammaticalExpression.node "nn" [GrammaticalExpression.leaf "tt"]) := by
    have hmemNN : ruleNN ∈ gNot.rulesFor "B" :=
      List.mem_filter.mpr ⟨List.mem_cons_of_mem _ (List.mem_cons_self _ _), by decide⟩
    have hmemTT : ruleTT ∈ gNot.rulesFor "B" :=
      List.mem_filter.mpr ⟨List.mem_cons_self _ _, by decide⟩
    exact Generable.node hmemNN rfl
      (List.Forall₂.cons (Generable.leaf hmemTT rfl) List.Forall₂.nil)
  exact (parse_roundtrip gNot (by decide) (by decide) (by decide)).1 "B" _ hgen

/-- Counterexample to C5 as stated: over `gEmptyRhs` (whose single rule
name `f` is clean), `generate` produces the childless node `f()`
(children `= ()`), whose printed form `f()` makes `parse` raise (the
closer pops the only stack entry and then indexes an empty stack). -/
theorem tokenize_nil : tokenize [] = some [] := by
  rw [tokenize.eq_def]

theorem parse_counterexample :
    gEmptyRhs.rules.all (fun r => goodName r.name) = true ∧
    Generable gEmptyRhs "S" (GrammaticalExpression.node "f" []) ∧
    gEmptyRhs.parse (strOf (GrammaticalExpression.node "f" [])) = none := by
  refine ⟨by decide, ?_, ?_⟩
  · have hmemF : ruleEmptyRhs ∈ gEmptyRhs.rulesFor "S" :=
      List.mem_filter.mpr ⟨List.mem_cons_self _ _, by decide⟩
    exact Generable.node hmemF rfl List.Forall₂.nil
  · have hs : strOf (GrammaticalExpression.node "f" []) =
        "f".data ++ '(' :: (')' :: []) := rfl
    unfold Grammar.parse
    rw [hs, tokenize_name_open (by decide), tokenize_close, tokenize_nil]
    simp only [Option.map_some', Option.some_bind]
    decide

theorem assocFind_mem {α : Type u} {β : Type v} [DecidableEq α]
    {l : List (α × β)} {k : α} {v : β} (h : assocFind l k = some v) :
    (k, v) ∈ l := by
  unfold assocFind at h
  cases hf : l.find? fun p => p.1 = k with
  | none => rw [hf] at h; cases h
  | some p =>
    rw [hf] at h
    simp only [Option.map_some', Option.some.injEq] at h
    have hmem := List.mem_of_find?_eq_some hf
    have hpred := List.find?_some hf
    have hk : p.1 = k := of_decide_eq_true hpred
    have : p = (k, v) := by
      cases p
      simp only [Prod.mk.injEq]
      exact ⟨hk, h⟩
    rwa [this] at hmem

/-- Relate a state-threading loop to its pure counterpart: if each step
agrees with the pure step on the produced list and preserves `P`, so does
the whole loop. -/
theorem flatMapSt_spec {σ : Type w} {α : Type u} {β : Type v} {P : σ → Prop}
    {f : α → σ → Option (List β × σ)} {fn : α → Option (List β)} {l : List α}
    (h : ∀ a ∈ l, ∀ s, P s →
      ((f a s).map Prod.fst = fn a) ∧ (∀ bs s1, f a s = some (bs, s1) → P s1)) :
    ∀ s, P s →
      ((flatMapSt f l s).map Prod.fst = flatMapM fn l) ∧
      (∀ bs s1, flatMapSt f l s = some (bs, s1) → P s1) := by
  induction l with
  | nil =>
    intro s hP
    refine ⟨rfl, ?_⟩
    intro bs s1 hh
    simp only [flatMapSt, Option.some.injEq, Prod.mk.injEq] at hh
    rw [← hh.2]
    exact hP
  | cons a as ih =>
    intro s hP
    rcases h a (List.mem_cons_self _ _) s hP with ⟨hfst, hpres⟩
    cases hfa : f a s with
    | none =>
      rw [hfa] at hfst
      simp only [Option.map_none'] at hfst
      constructor
      · show (flatMapSt f (a :: as) s).map Prod.fst = flatMapM fn (a :: as)
        simp only [flatMapSt, flatMapM, hfa, ← hfst, Option.none_bind, Option.map_none']
      · intro bs s1 hh
        simp only [flatMapSt, hfa, Option.none_bind] at hh
        cases hh
    | some p =>
      obtain ⟨bs0, s1⟩ := p
      rw [hfa] at hfst
      simp only [Option.map_some'] at hfst
      have hP1 : P s1 := hpres bs0 s1 hfa
      rcases ih (fun x hx => h x (List.mem_cons_of_mem _ hx)) s1 hP1 with ⟨ihfst, ihpres⟩
      cases hrest : flatMapSt f as s1 with
      | none =>
        rw [hrest] at ihfst
        simp only [Option.map_none'] at ihfst
        constructor
        · simp only [flatMapSt, flatMapM, hfa, hrest, ← hfst, ← ihfst,
            Option.some_bind, Option.map_none']
        · intro bs s2 hh
          simp only [flatMapSt, hfa, hrest, Option.some_bind, Option.map_none'] at hh
          cases hh
      | some q =>
        obtain ⟨rest, s2⟩ := q
        rw [hrest] at ihfst
        simp only [Option.map_some'] at ihfst
        constructor
        · simp only [flatMapSt, flatMapM, hfa, hrest, ← hfst, ← ihfst,
            Option.some_bind, Option.map_some']
        · intro bs s3 hh
          simp only [flatMapSt, hfa, hrest, Option.some_bind, Option.map_some',
            Option.some.injEq, Prod.mk.injEq] at hh
          rw [← hh.2]
          exact ihpres rest s2 hrest

theorem seqSt_spec {σ : Type w} {α : Type u} {β : Type v} {P : σ → Prop}
    {f : α → σ → Option (β × σ)} {fn : α → Option β} {l : List α}
    (h : ∀ a ∈ l, ∀ s, P s →
      ((f a s).map Prod.fst = fn a) ∧ (∀ b s1, f a s = some (b, s1) → P s1)) :
    ∀ s, P s →
      ((seqSt f l s).map Prod.fst = seqOpt fn l) ∧
      (∀ bs s1, seqSt f l s = some (bs, s1) → P s1) := by
  induction l with
  | nil =>
    intro s hP
    refine ⟨rfl, ?_⟩
    intro bs s1 hh
    simp only [seqSt, Option.some.injEq, Prod.mk.injEq] at hh
    rw [← hh.2]
    exact hP
  | cons a as ih =>
    intro s hP
    rcases h a (List.mem_cons_self _ _) s hP with ⟨hfst, hpres⟩
    cases hfa : f a s with
    | none =>
      rw [hfa] at hfst
      simp only [Option.map_none'] at hfst
      constructor
      · simp only [seqSt, seqOpt, hfa, ← hfst, Option.none_bind, Option.map_none']
      · intro bs s1 hh
        simp only [seqSt, hfa, Option.none_bind] at hh
        cases hh
    | some p =>
      obtain ⟨b0, s1⟩ := p
      rw [hfa] at hfst
      simp only [Option.map_some'] at hfst
      have hP1 : P s1 := hpres b0 s1 hfa
      rcases ih (fun x hx => h x (List.mem_cons_of_mem _ hx)) s1 hP1 with ⟨ihfst, ihpres⟩
      cases hrest : seqSt f as s1 with
      | none =>
        rw [hrest] at ihfst
        simp only [Option.map_none'] at ihfst
        constructor
        · simp only [seqSt, seqOpt, hfa, hrest, ← hfst, ← ihfst,
            Option.some_bind, Option.map_none']
        · intro bs s2 hh
          simp only [seqSt, hfa, hrest, Option.some_bind, Option.map_none'] at hh
          cases hh
      | some q =>
        obtain ⟨rest, s2⟩ := q
        rw [hrest] at ihfst
        simp only [Option.map_some'] at ihfst
        constructor
        · simp only [seqSt, seqOpt, hfa, hrest, ← hfst, ← ihfst,
            Option.some_bind, Option.map_some']
        · intro bs s3 hh
          simp only [seqSt, hfa, hrest, Option.some_bind, Option.map_some',
            Option.some.injEq, Prod.mk.injEq] at hh
          rw [← hh.2]
          exact ihpres rest s2 hrest

theorem enumMemoStep_hit {g : Grammar τ V} {rec} {d : Nat} {l : τ}
    {s : MemoState τ} {es : List GrammaticalExpression}
    (hhit : assocFind s.cache (d, l) = some es) :
    Grammar.enumMemoStep g rec d l s = some (es, s) := by
  unfold Grammar.enumMemoStep
  rw [hhit]

theorem enumMemoStep_miss_zero {g : Grammar τ V} {rec} {l : τ}
    {s : MemoState τ} (hhit : assocFind s.cache (0, l) = none) :
    Grammar.enumMemoStep g rec 0 l s =
      (let s0 : MemoState τ := { s with trace := s.trace ++ [(0, l)] }
       let es := (g.rulesFor l).filterMap fun r =>
         if r.isTerminal then some (.leaf r.name) else none
       some (es, { s0 with
          cache := if es.isEmpty then s0.cache else s0.cache ++ [((0, l), es)] })) := by
  unfold Grammar.enumMemoStep
  rw [hhit]

theorem enumMemoStep_miss_succ {g : Grammar τ V} {rec} {d' : Nat} {l : τ}
    {s : MemoState τ} (hhit : assocFind s.cache (d'+1, l) = none) :
    Grammar.enumMemoStep g rec (d'+1) l s =
      (flatMapSt (memoRuleF g rec d') (g.rulesFor l)
        { s with trace := s.trace ++ [(d'+1, l)] }).map fun q =>
          (q.1, { q.2 with
            cache := if q.1.isEmpty then q.2.cache
              else q.2.cache ++ [((d'+1, l), q.1)] }) := by
  unfold Grammar.enumMemoStep
  rw [hhit]

/-- The naive step at a successor depth, phrased with `naiveRuleF`. -/
theorem enumStep_succ_eq (g : Grammar τ V)
    (rec : Nat → τ → Option (List GrammaticalExpression)) (d' : Nat) (l : τ) :
    Grammar.enumStep g rec (d'+1) l = flatMapM (naiveRuleF g rec d') (g.rulesFor l) := rfl

/-- Per-tuple agreement between the memoized and naive enumeration
bodies, given agreement of the child calls. -/
theorem memoTuple_spec (g : Grammar τ V) (f d' : Nat) (ts : List τ)
    (rname : String)
    (ih : ∀ cd, cd < d'+1 → ∀ cl s, MemoState.Valid g s →
      ((Grammar.enumMemoAux g f cd cl s).map Prod.fst = g.enumerateAtDepth cd cl) ∧
      (∀ es s1, Grammar.enumMemoAux g f cd cl s = some (es, s1) → MemoState.Valid g s1)) :
    ∀ t ∈ listProd (List.replicate ts.length (List.range (d'+1))),
      ∀ s, MemoState.Valid g s →
      ((memoTupleF g (Grammar.enumMemoAux g f) d' ts rname t s).map Prod.fst =
        naiveTupleF g (fun cd cl => g.enumerateAtDepth cd cl) d' ts rname t) ∧
      (∀ bs s1, memoTupleF g (Grammar.enumMemoAux g f) d' ts rname t s = some (bs, s1) →
        MemoState.Valid g s1) := by
  intro t ht s hs
  have hchild : ∀ p ∈ t.zip ts, ∀ s4, MemoState.Valid g s4 →
      (((fun (p : Nat × τ) s3 => Grammar.enumMemoAux g f p.1 p.2 s3) p s4).map Prod.fst =
        (fun (p : Nat × τ) => g.enumerateAtDepth p.1 p.2) p) ∧
      (∀ b s5, (fun (p : Nat × τ) s3 => Grammar.enumMemoAux g f p.1 p.2 s3) p s4 = some (b, s5) →
        MemoState.Valid g s5) := by
    intro p hp s4 hs4
    have hlt : p.1 < d'+1 :=
      mem_of_mem_listProd_replicate_range ht (List.of_mem_zip hp).1
    exact ih p.1 hlt p.2 s4 hs4
  have hseq := seqSt_spec hchild s hs
  unfold memoTupleF naiveTupleF
  cases hmax : t.max? with
  | none => exact ⟨rfl, fun bs s1 hh => by cases hh⟩
  | some m =>
    dsimp only
    by_cases hm : m < d'
    · rw [if_pos hm, if_pos hm]
      exact ⟨rfl, fun bs s1 hh => by
        simp only [Option.some.injEq, Prod.mk.injEq] at hh
        rw [← hh.2]
        exact hs⟩
    · rw [if_neg hm, if_neg hm]
      cases hrun : seqSt (fun (p : Nat × τ) s3 => Grammar.enumMemoAux g f p.1 p.2 s3) (t.zip ts) s with
      | none =>
        have h1 : seqOpt (fun (p : Nat × τ) => g.enumerateAtDepth p.1 p.2) (t.zip ts) = none := by
          rw [← hseq.1, hrun]
          rfl
        rw [h1]
        exact ⟨rfl, fun bs s1 hh => by cases hh⟩
      | some q =>
        obtain ⟨cls, s2⟩ := q
        have h1 : seqOpt (fun (p : Nat × τ) => g.enumerateAtDepth p.1 p.2) (t.zip ts) = some cls := by
          rw [← hseq.1, hrun]
          rfl
        rw [h1]
        refine ⟨rfl, ?_⟩
        intro bs s1 hh
        simp only [Option.map_some', Option.some.injEq, Prod.mk.injEq] at hh
        rw [← hh.2]
        exact hseq.2 cls s2 hrun

/-- Per-rule agreement between the memoized and naive enumeration
bodies. -/
theorem memoRule_spec (g : Grammar τ V) (f d' : Nat) (l : τ)
    (ih : ∀ cd, cd < d'+1 → ∀ cl s, MemoState.Valid g s →
      ((Grammar.enumMemoAux g f cd cl s).map Prod.fst = g.enumerateAtDepth cd cl) ∧
      (∀ es s1, Grammar.enumMemoAux g f cd cl s = some (es, s1) → MemoState.Valid g s1)) :
    ∀ r ∈ g.rulesFor l, ∀ s1, MemoState.Valid g s1 →
      ((memoRuleF g (Grammar.enumMemoAux g f) d' r s1).map Prod.fst =
        naiveRuleF g (fun cd cl => g.enumerateAtDepth cd cl) d' r) ∧
      (∀ bs s2, memoRuleF g (Grammar.enumMemoAux g f) d' r s1 = some (bs, s2) →
        MemoState.Valid g s2) := by
  intro r hr s1 hs1
  unfold memoRuleF naiveRuleF
  cases hrhs : r.rhs with
  | none =>
    exact ⟨rfl, fun bs s2 hh => by
      simp only [Option.some.injEq, Prod.mk.injEq] at hh
      rw [← hh.2]
      exact hs1⟩
  | some ts =>
    exact flatMapSt_spec (memoTuple_spec g f d' ts r.name ih) s1 hs1

/-- The memoized enumeration agrees with the naive recursion and
preserves cache validity. -/
theorem enumMemoAux_spec (g : Grammar τ V) :
    ∀ d fuel, d < fuel → ∀ l (s : MemoState τ), MemoState.Valid g s →
      ((Grammar.enumMemoAux g fuel d l s).map Prod.fst = g.enumerateAtDepth d l) ∧
      (∀ es s1, Grammar.enumMemoAux g fuel d l s = some (es, s1) →
        MemoState.Valid g s1) := by
  intro d
  induction d using Nat.strong_induction_on with
  | _ d ih =>
    intro fuel hfuel l s hValid
    match fuel, hfuel with
    | f+1, _ =>
      show ((Grammar.enumMemoStep g (Grammar.enumMemoAux g f) d l s).map Prod.fst
          = g.enumerateAtDepth d l) ∧
        (∀ es s1, Grammar.enumMemoStep g (Grammar.enumMemoAux g f) d l s = some (es, s1) →
          MemoState.Valid g s1)
      cases hhit : assocFind s.cache (d, l) with
      | some es =>
        rw [enumMemoStep_hit hhit]
        have hnv := hValid _ (assocFind_mem hhit)
        refine ⟨by simp only [Option.map_some']; exact hnv.1.symm, ?_⟩
        intro es1 s1 hh
        simp only [Option.some.injEq, Prod.mk.injEq] at hh
        rw [← hh.2]
        exact hValid
      | none =>
        match d, ih with
        | 0, _ =>
          rw [enumMemoStep_miss_zero hhit]
          refine ⟨by rw [enumerateAtDepth_zero]; rfl, ?_⟩
          intro es s1 hh
          simp only [Option.some.injEq, Prod.mk.injEq] at hh
          rw [← hh.2]
          intro p hp
          by_cases hemp : ((g.rulesFor l).filterMap fun r =>
              if r.isTerminal then some (GrammaticalExpression.leaf r.name) else none).isEmpty
          · rw [if_pos hemp] at hp
            exact hValid p hp
          · rw [if_neg hemp] at hp
            rcases List.mem_append.mp hp with hold | hnew
            · exact hValid p hold
            · rcases List.mem_singleton.mp hnew with rfl
              refine ⟨enumerateAtDepth_zero g l, ?_⟩
              intro hnil
              have hnil2 : ((g.rulesFor l).filterMap fun r =>
                  if r.isTerminal then some (GrammaticalExpression.leaf r.name)
                  else none) = [] := hnil
              rw [hnil2] at hemp
              exact hemp rfl
        | d'+1, ih =>
          rw [enumMemoStep_miss_succ hhit]
          have hih : ∀ cd, cd < d'+1 → ∀ cl s2, MemoState.Valid g s2 →
              ((Grammar.enumMemoAux g f cd cl s2).map Prod.fst = g.enumerateAtDepth cd cl) ∧
              (∀ es s1, Grammar.enumMemoAux g f cd cl s2 = some (es, s1) →
                MemoState.Valid g s1) := by
            intro cd hcd cl s2 hs2
            exact ih cd hcd f (by omega) cl s2 hs2
          have hs0 : MemoState.Valid g { s with trace := s.trace ++ [(d'+1, l)] } :=
            fun p hp => hValid p hp
          have hboth := flatMapSt_spec (memoRule_spec g f d' l hih)
            { s with trace := s.trace ++ [(d'+1, l)] } hs0
          have hnaive : g.enumerateAtDepth (d'+1) l =
              flatMapM (naiveRuleF g (fun cd cl => g.enumerateAtDepth cd cl) d')
                (g.rulesFor l) := by
            rw [Grammar.enumerateAtDepth_eq, enumStep_succ_eq]
          cases hrun : flatMapSt (memoRuleF g (Grammar.enumMemoAux g f) d')
              (g.rulesFor l) { s with trace := s.trace ++ [(d'+1, l)] } with
          | none =>
            have h1 : flatMapM (naiveRuleF g (fun cd cl => g.enumerateAtDepth cd cl) d')
                (g.rulesFor l) = none := by
              rw [← hboth.1, hrun]
              rfl
            refine ⟨by rw [hnaive, h1]; rfl, ?_⟩
            intro es s1 hh
            cases hh
          | some q =>
            obtain ⟨es0, s2⟩ := q
            have h1 : flatMapM (naiveRuleF g (fun cd cl => g.enumerateAtDepth cd cl) d')
                (g.rulesFor l) = some es0 := by
              rw [← hboth.1, hrun]
              rfl
            have hValid2 : MemoState.Valid g s2 := hboth.2 es0 s2 hrun
            have hnaive2 : g.enumerateAtDepth (d'+1) l = some es0 := by
              rw [hnaive, h1]
            refine ⟨by simp only [Option.map_some']; exact hnaive2.symm, ?_⟩
            intro es s1 hh
            simp only [Option.map_some', Option.some.injEq, Prod.mk.injEq] at hh
            rw [← hh.2]
            intro p hp
            by_cases hemp : es0.isEmpty
            · rw [if_pos hemp] at hp
              exact hValid2 p hp
            · rw [if_neg hemp] at hp
              rcases List.mem_append.mp hp with hold | hnew
              · exact hValid2 p hold
              · rcases List.mem_singleton.mp hnew with rfl
                refine ⟨hnaive2, ?_⟩
                intro hnil
                have hnil2 : es0 = [] := hnil
                rw [hnil2] at hemp
                exact hemp rfl

/-- A cache hit replays the cached list and leaves the state untouched. -/
theorem enumMemoAux_replay (g : Grammar τ V) :
    ∀ fuel d l (s : MemoState τ) es, d < fuel →
      assocFind s.cache (d, l) = some es →
      Grammar.enumMemoAux g fuel d l s = some (es, s) := by
  intro fuel d l s es hd hhit
  match fuel, hd with
  | f+1, _ =>
    show Grammar.enumMemoStep g (Grammar.enumMemoAux g f) d l s = some (es, s)
    exact enumMemoStep_hit hhit

/-- A call that produces at least one expression leaves its key cached. -/
theorem enumMemoAux_caches (g : Grammar τ V) :
    ∀ fuel d l (s : MemoState τ) es s1,
      Grammar.enumMemoAux g fuel d l s = some (es, s1) → es ≠ [] →
      ((d, l), es) ∈ s1.cache := by
  intro fuel d l s es s1 hrun hne
  match fuel with
  | f+1 =>
    rw [show Grammar.enumMemoAux g (f+1) d l s
        = Grammar.enumMemoStep g (Grammar.enumMemoAux g f) d l s from rfl] at hrun
    cases hhit : assocFind s.cache (d, l) with
    | some es0 =>
      rw [enumMemoStep_hit hhit] at hrun
      simp only [Option.some.injEq, Prod.mk.injEq] at hrun
      rw [← hrun.2, ← hrun.1]
      exact assocFind_mem hhit
    | none =>
      match d with
      | 0 =>
        rw [enumMemoStep_miss_zero hhit] at hrun
        simp only [Option.some.injEq, Prod.mk.injEq] at hrun
        obtain ⟨hes, hs1⟩ := hrun
        subst hes
        subst hs1
        show _ ∈ (if ((g.rulesFor l).filterMap fun r =>
            if r.isTerminal then some (GrammaticalExpression.leaf r.name)
            else none).isEmpty then s.cache
          else s.cache ++ [((0, l), (g.rulesFor l).filterMap fun r =>
            if r.isTerminal then some (GrammaticalExpression.leaf r.name) else none)])
        rw [if_neg fun h => hne (List.isEmpty_iff.mp h)]
        simp
      | d'+1 =>
        rw [enumMemoStep_miss_succ hhit] at hrun
        cases hflat : flatMapSt (memoRuleF g (Grammar.enumMemoAux g f) d')
            (g.rulesFor l) { s with trace := s.trace ++ [(d'+1, l)] } with
        | none => rw [hflat] at hrun; cases hrun
        | some q =>
          obtain ⟨es0, s2⟩ := q
          rw [hflat] at hrun
          simp only [Option.map_some', Option.some.injEq, Prod.mk.injEq] at hrun
          obtain ⟨hes, hs1⟩ := hrun
          subst hes
          subst hs1
          show _ ∈ (if es0.isEmpty then s2.cache else s2.cache ++ [((d'+1, l), es0)])
          rw [if_neg fun h => hne (List.isEmpty_iff.mp h)]
          simp

/-- C3 (amended): without a uniqueness pass, the memoized enumeration
(cache keyed by `(depth, lhs)`, shared across one top-level `enumerate`
call) yields exactly the same sequence of expressions as the naive
unmemoized recursion; a `(depth, lhs)` call that finds its key cached
replays the cached list with no state change, and a call that produces at
least one expression leaves its key cached — but a subproblem yielding no
expressions is never cached (the Python code only creates the cache entry
by appending yielded expressions to it) and is recomputed on every later
request. -/
theorem enumerateMemo_eq_enumerate (g : Grammar τ V) :
    (∀ depth l, (g.enumerateMemo depth l).map Prod.fst = g.enumerate depth l) ∧
    (∀ fuel d l (s : MemoState τ) es, d < fuel →
      assocFind s.cache (d, l) = some es →
      Grammar.enumMemoAux g fuel d l s = some (es, s)) ∧
    (∀ fuel d l (s : MemoState τ) es s1,
      Grammar.enumMemoAux g fuel d l s = some (es, s1) → es ≠ [] →
      ((d, l), es) ∈ s1.cache) := by
  refine ⟨?_, enumMemoAux_replay g, enumMemoAux_caches g⟩
  intro depth l
  have hinit : MemoState.Valid g { cache := [], trace := [] } := by
    intro p hp
    cases hp
  have hnum : ∀ num ∈ List.range depth, ∀ s, MemoState.Valid g s →
      (((fun num s1 => Grammar.enumMemoAux g (num+1) num l s1) num s).map Prod.fst =
        (fun num => g.enumerateAtDepth num l) num) ∧
      (∀ bs s1, (fun num s1 => Grammar.enumMemoAux g (num+1) num l s1) num s
          = some (bs, s1) → MemoState.Valid g s1) := by
    intro num hnum s hs
    exact enumMemoAux_spec g num (num+1) (Nat.lt_succ_self num) l s hs
  exact (flatMapSt_spec hnum { cache := [], trace := [] } hinit).1

/-- Counterexample to C3 as stated: during `enumerate(2, "S")` over
`gPair`, the else-branch (actual computation) for the subproblem
`(0, "T")` runs twice — once per `T` child of `gg` — because a subproblem
that yields no expressions never enters the cache, refuting "each
`(depth, lhs)` subproblem is computed once". -/
theorem enumerateMemo_counterexample :
    (gPair.enumerateMemo 2 "S").map (fun q => q.2.trace) =
      some [(0, "S"), (1, "S"), (0, "T"), (0, "T")] := by
  decide

/-- Witness for `enumerateMemo_eq_enumerate`: a concrete cache hit
replays its entry. -/
theorem enumerateMemo_eq_enumerate_witness :
    Grammar.enumMemoAux gDup 1 0 "S"
      { cache := [((0, "S"), [GrammaticalExpression.leaf "f"])], trace := [] } =
    some ([GrammaticalExpression.leaf "f"],
      { cache := [((0, "S"), [GrammaticalExpression.leaf "f"])], trace := [] }) :=
  (enumerateMemo_eq_enumerate gDup).2.1 1 0 "S"
    { cache := [((0, "S"), [GrammaticalExpression.leaf "f"])], trace := [] }
    [GrammaticalExpression.leaf "f"] (by decide) (by decide)

theorem assocFind_cons_self {α : Type u} {β : Type v} [DecidableEq α]
    {p : α × β} {l : List (α × β)} {k : α} (h : p.1 = k) :
    assocFind (p :: l) k = some p.2 := by
  unfold assocFind
  rw [List.find?_cons_of_pos _ (by simpa using h)]
  rfl

theorem assocFind_cons_ne {α : Type u} {β : Type v} [DecidableEq α]
    {p : α × β} {l : List (α × β)} {k : α} (h : ¬ p.1 = k) :
    assocFind (p :: l) k = assocFind l k := by
  unfold assocFind
  rw [List.find?_cons_of_neg _ (by simpa using h)]

theorem assocFind_set_self {α : Type u} {β : Type v} [DecidableEq α]
    (l : List (α × β)) (k : α) (v : β) :
    assocFind (assocSet l k v) k = some v := by
  induction l with
  | nil => exact assocFind_cons_self rfl
  | cons p l ih =>
    show assocFind (if p.1 = k then (k, v) :: l else p :: assocSet l k v) k = some v
    by_cases hp : p.1 = k
    · rw [if_pos hp]
      exact assocFind_cons_self rfl
    · rw [if_neg hp, assocFind_cons_ne hp]
      exact ih

theorem assocFind_set_ne {α : Type u} {β : Type v} [DecidableEq α]
    (l : List (α × β)) (k k' : α) (v : β) (hne : ¬ k' = k) :
    assocFind (assocSet l k v) k' = assocFind l k' := by
  induction l with
  | nil =>
    show assocFind [(k, v)] k' = assocFind [] k'
    rw [assocFind_cons_ne (fun h => hne h.symm)]
  | cons p l ih =>
    show assocFind (if p.1 = k then (k, v) :: l else p :: assocSet l k v) k' = _
    by_cases hp : p.1 = k
    · rw [if_pos hp]
      rw [assocFind_cons_ne (show ¬ (k, v).1 = k' from fun h => hne h.symm)]
      rw [assocFind_cons_ne (show ¬ p.1 = k' from fun h => hne (hp ▸ h).symm)]
    · rw [if_neg hp]
      by_cases hp' : p.1 = k'
      · rw [assocFind_cons_self hp', assocFind_cons_self hp']
      · rw [assocFind_cons_ne hp', assocFind_cons_ne hp']
        exact ih

theorem mem_keys_assocSet {α : Type u} {β : Type v} [DecidableEq α]
    (l : List (α × β)) (k a : α) (v : β) :
    a ∈ (assocSet l k v).map Prod.fst ↔ (a ∈ l.map Prod.fst ∨ a = k) := by
  induction l with
  | nil => simp [assocSet]
  | cons p l ih =>
    show a ∈ ((if p.1 = k then (k, v) :: l else p :: assocSet l k v).map Prod.fst) ↔ _
    by_cases hp : p.1 = k
    · rw [if_pos hp]
      simp only [List.map_cons, List.mem_cons, hp]
      constructor
      · rintro (h | h)
        · exact Or.inr h
        · exact Or.inl (Or.inr h)
      · rintro ((h | h) | h)
        · exact Or.inl (hp ▸ h)
        · exact Or.inr h
        · exact Or.inl h
    · rw [if_neg hp]
      simp only [List.map_cons, List.mem_cons, ih]
      constructor
      · rintro (h | h | h)
        · exact Or.inl (Or.inl h)
        · exact Or.inl (Or.inr h)
        · exact Or.inr h
      · rintro ((h | h) | h)
        · exact Or.inl h
        · exact Or.inr (Or.inl h)
        · exact Or.inr (Or.inr h)

theorem assocSet_keys_nodup {α : Type u} {β : Type v} [DecidableEq α]
    {l : List (α × β)} {k : α} {v : β} (h : (l.map Prod.fst).Nodup) :
    ((assocSet l k v).map Prod.fst).Nodup := by
  induction l with
  | nil => simp [assocSet]
  | cons p l ih =>
    rw [List.map_cons, List.nodup_cons] at h
    show ((if p.1 = k then (k, v) :: l else p :: assocSet l k v).map Prod.fst).Nodup
    by_cases hp : p.1 = k
    · rw [if_pos hp]
      rw [List.map_cons, List.nodup_cons]
      exact ⟨fun hc => h.1 (hp ▸ hc), h.2⟩
    · rw [if_neg hp]
      rw [List.map_cons, List.nodup_cons]
      refine ⟨fun hc => ?_, ih h.2⟩
      rcases (mem_keys_assocSet l k p.1 v).mp hc with hc | hc
      · exact h.1 hc
      · exact hp hc

/-- `add_unique` with `compare` = strictly-smaller-size: acceptance happens
exactly when the key is fresh for this `lhs` or the candidate is strictly
shorter than the stored entry. -/
theorem addUnique_accept_iff (key : GrammaticalExpression → κ)
    (l : τ) (e : GrammaticalExpression) (ud : UniqueDict τ κ) :
    (addUnique key sizeLt l e ud).1 = true ↔
      (assocFind (innerAt ud l) (key e) = none ∨
       ∃ e0, assocFind (innerAt ud l) (key e) = some e0 ∧
         e.length < e0.length) := by
  unfold addUnique innerAt
  dsimp only
  cases hf : assocFind ((assocFind ud l).getD []) (key e) with
  | none =>
    simp
  | some e0 =>
    dsimp only
    by_cases hc : sizeLt e e0 = true
    · rw [if_pos hc]
      simp only [true_iff]
      exact Or.inr ⟨e0, rfl, of_decide_eq_true hc⟩
    · rw [if_neg hc]
      constructor
      · intro hff
        exact Bool.noConfusion hff
      · rintro (h | ⟨e1, he1, hlt⟩)
        · exact Option.noConfusion h
        · cases he1
          exact absurd (decide_eq_true hlt) hc

/-- The inner dictionary at the updated `lhs` after `add_unique`. -/
theorem innerAt_addUnique_self (key : GrammaticalExpression → κ)
    (cmp : GrammaticalExpression → GrammaticalExpression → Bool)
    (l : τ) (e : GrammaticalExpression) (ud : UniqueDict τ κ) :
    innerAt (addUnique key cmp l e ud).2 l =
      match assocFind (innerAt ud l) (key e) with
      | none => assocSet (innerAt ud l) (key e) e
      | some e0 =>
        if cmp e e0 then assocSet (innerAt ud l) (key e) e else innerAt ud l := by
  unfold addUnique innerAt
  dsimp only
  cases hf : assocFind ((assocFind ud l).getD []) (key e) with
  | none =>
    dsimp only
    rw [assocFind_set_self]
    rfl
  | some e0 =>
    dsimp only
    by_cases hc : cmp e e0 = true
    · rw [if_pos hc, if_pos hc]
      dsimp only
      rw [assocFind_set_self]
      rfl
    · rw [if_neg hc, if_neg hc]
      dsimp only
      rw [assocFind_set_self]
      rfl

/-- `add_unique` leaves every other `lhs` of `unique_dict` unchanged. -/
theorem innerAt_addUnique_ne (key : GrammaticalExpression → κ)
    (cmp : GrammaticalExpression → GrammaticalExpression → Bool)
    (l l' : τ) (e : GrammaticalExpression) (ud : UniqueDict τ κ)
    (hne : ¬ l' = l) :
    innerAt (addUnique key cmp l e ud).2 l' = innerAt ud l' := by
  unfold addUnique innerAt
  dsimp only
  cases hf : assocFind ((assocFind ud l).getD []) (key e) with
  | none =>
    dsimp only
    rw [assocFind_set_ne _ _ _ _ hne]
  | some e0 =>
    dsimp only
    by_cases hc : cmp e e0 = true
    · rw [if_pos hc]
      dsimp only
      rw [assocFind_set_ne _ _ _ _ hne]
    · rw [if_neg hc]
      dsimp only
      rw [assocFind_set_ne _ _ _ _ hne]

theorem innerAt_keys_nodup {key : GrammaticalExpression → κ}
    {s : UniqueState τ κ} (h : USInv key s) (l : τ) :
    ((innerAt s.udict l).map Prod.fst).Nodup := by
  unfold innerAt
  cases hf : assocFind s.udict l with
  | none => simp
  | some inner => exact h.1 l inner hf

theorem USInv_addUnique {key : GrammaticalExpression → κ}
    {s : UniqueState τ κ} (h : USInv key s)
    (l : τ) (e : GrammaticalExpression) :
    USInv key { s with
      udict := (addUnique key sizeLt l e s.udict).2,
      constructed := s.constructed ++ [(l, e)] } := by
  constructor
  · intro l'' inner hfind
    by_cases hl : l'' = l
    · subst hl
      have hinner : innerAt (addUnique key sizeLt l'' e s.udict).2 l'' = inner := by
        unfold innerAt
        rw [hfind]
        rfl
      rw [innerAt_addUnique_self] at hinner
      have hbase := innerAt_keys_nodup h l''
      cases hf : assocFind (innerAt s.udict l'') (key e) with
      | none =>
        rw [hf] at hinner
        dsimp only at hinner
        rw [← hinner]
        exact assocSet_keys_nodup hbase
      | some e0 =>
        rw [hf] at hinner
        dsimp only at hinner
        by_cases hc : sizeLt e e0 = true
        · rw [if_pos hc] at hinner
          rw [← hinner]
          exact assocSet_keys_nodup hbase
        · rw [if_neg hc] at hinner
          rw [← hinner]
          exact hbase
    · have hsame : innerAt (addUnique key sizeLt l e s.udict).2 l'' = innerAt s.udict l'' :=
        innerAt_addUnique_ne key sizeLt l l'' e s.udict hl
      unfold innerAt at hsame
      rw [hfind] at hsame
      cases hf : assocFind s.udict l'' with
      | none =>
        rw [hf] at hsame
        simp only [Option.getD_none, Option.getD_some] at hsame
        rw [hsame]
        simp
      | some inner0 =>
        rw [hf] at hsame
        simp only [Option.getD_some] at hsame
        rw [hsame]
        exact h.1 l'' inner0 hf
  · intro p hp
    rcases List.mem_append.mp hp with hp | hp
    · rcases h.2 p hp with ⟨e0, he0, hle⟩
      by_cases hl : p.1 = l
      · rw [hl]
        rw [hl] at he0
        show ∃ e1, assocFind (innerAt (addUnique key sizeLt l e s.udict).2 l) (key p.2)
            = some e1 ∧ e1.length ≤ p.2.length
        rw [innerAt_addUnique_self]
        by_cases hk : key p.2 = key e
        · rw [← hk, he0]
          dsimp only
          by_cases hc : sizeLt e e0 = true
          · rw [if_pos hc, assocFind_set_self]
            exact ⟨e, rfl, Nat.le_trans (Nat.le_of_lt (of_decide_eq_true hc)) hle⟩
          · rw [if_neg hc]
            exact ⟨e0, he0, hle⟩
        · cases hf : assocFind (innerAt s.udict l) (key e) with
          | none =>
            dsimp only
            rw [assocFind_set_ne _ _ _ _ hk]
            exact ⟨e0, he0, hle⟩
          | some e1 =>
            dsimp only
            by_cases hc : sizeLt e e1 = true
            · rw [if_pos hc, assocFind_set_ne _ _ _ _ hk]
              exact ⟨e0, he0, hle⟩
            · rw [if_neg hc]
              exact ⟨e0, he0, hle⟩
      · show ∃ e1, assocFind (innerAt (addUnique key sizeLt l e s.udict).2 p.1) (key p.2)
            = some e1 ∧ e1.length ≤ p.2.length
        rw [innerAt_addUnique_ne key sizeLt l p.1 e s.udict hl]
        exact ⟨e0, he0, hle⟩
    · simp only [List.mem_singleton] at hp
      rw [hp]
      show ∃ e1, assocFind (innerAt (addUnique key sizeLt l e s.udict).2 l) (key e)
          = some e1 ∧ e1.length ≤ e.length
      rw [innerAt_addUnique_self]
      cases hf : assocFind (innerAt s.udict l) (key e) with
      | none =>
        dsimp only
        rw [assocFind_set_self]
        exact ⟨e, rfl, Nat.le_refl _⟩
      | some e0 =>
        dsimp only
        by_cases hc : sizeLt e e0 = true
        · rw [if_pos hc, assocFind_set_self]
          exact ⟨e, rfl, Nat.le_refl _⟩
        · rw [if_neg hc]
          refine ⟨e0, hf, ?_⟩
          have hnot : ¬ e.length < e0.length := by
            intro hlt
            exact hc (decide_eq_true hlt)
          omega

theorem flatMapSt_pres {σ : Type w} {α : Type u} {β : Type v}
    {f : α → σ → Option (List β × σ)} {P : σ → Prop}
    (h : ∀ a s q, P s → f a s = some q → P q.2) :
    ∀ (l : List α) (s : σ) q, P s → flatMapSt f l s = some q → P q.2 := by
  intro l
  induction l with
  | nil =>
    intro s q hs hq
    simp only [flatMapSt, Option.some.injEq] at hq
    rw [← hq]
    exact hs
  | cons a l ih =>
    intro s q hs hq
    simp only [flatMapSt] at hq
    cases hfa : f a s with
    | none => rw [hfa] at hq; cases hq
    | some p =>
      rw [hfa] at hq
      simp only [Option.some_bind] at hq
      cases hrest : flatMapSt f l p.2 with
      | none => rw [hrest] at hq; cases hq
      | some q' =>
        rw [hrest] at hq
        simp only [Option.map_some'] at hq
        have hp : P p.2 := h a s p hs hfa
        have hq' : P q'.2 := ih p.2 q' hp hrest
        cases hq
        exact hq'

theorem seqSt_pres {σ : Type w} {α : Type u} {β : Type v}
    {f : α → σ → Option (β × σ)} {P : σ → Prop}
    (h : ∀ a s q, P s → f a s = some q → P q.2) :
    ∀ (l : List α) (s : σ) q, P s → seqSt f l s = some q → P q.2 := by
  intro l
  induction l with
  | nil =>
    intro s q hs hq
    simp only [seqSt, Option.some.injEq] at hq
    rw [← hq]
    exact hs
  | cons a l ih =>
    intro s q hs hq
    simp only [seqSt] at hq
    cases hfa : f a s with
    | none => rw [hfa] at hq; cases hq
    | some p =>
      rw [hfa] at hq
      simp only [Option.some_bind] at hq
      cases hrest : seqSt f l p.2 with
      | none => rw [hrest] at hq; cases hq
      | some q' =>
        rw [hrest] at hq
        simp only [Option.map_some'] at hq
        have hp : P p.2 := h a s p hs hfa
        have hq' : P q'.2 := ih p.2 q' hp hrest
        cases hq
        exact hq'

/-- `USInv` ignores the `(depth, lhs)` cache. -/
theorem USInv_set_cache {key : GrammaticalExpression → κ}
    {s : UniqueState τ κ} (h : USInv key s) (c : EnumCache τ) :
    USInv key { s with cache := c } :=
  h

theorem USInv_processCandidate {key : GrammaticalExpression → κ}
    (l : τ) (e : GrammaticalExpression)
    (acc : List (GrammaticalExpression × UniqueDict τ κ) × UniqueState τ κ)
    (h : USInv key acc.2) :
    USInv key (processCandidate key sizeLt l e acc).2 := by
  have hstep := USInv_addUnique h l e
  unfold processCandidate
  dsimp only
  by_cases hr : (addUnique key sizeLt l e acc.2.udict).1 = true
  · rw [if_pos hr]
    exact hstep
  · rw [if_neg hr]
    exact hstep

theorem foldl_node_pres {key : GrammaticalExpression → κ}
    (l : τ) (rname : String) :
    ∀ (css : List (List GrammaticalExpression))
      (acc : List (GrammaticalExpression × UniqueDict τ κ) × UniqueState τ κ),
      USInv key acc.2 →
      USInv key (css.foldl (fun acc cs =>
        processCandidate key sizeLt l (GrammaticalExpression.node rname cs) acc) acc).2 := by
  intro css
  induction css with
  | nil => intro acc h; exact h
  | cons cs css ih =>
    intro acc h
    exact ih _ (USInv_processCandidate l (GrammaticalExpression.node rname cs) acc h)

theorem foldl_terminal_pres {V : Type v} {key : GrammaticalExpression → κ} (l : τ) :
    ∀ (rl : List (Rule τ V))
      (acc : List (GrammaticalExpression × UniqueDict τ κ) × UniqueState τ κ),
      USInv key acc.2 →
      USInv key (rl.foldl (fun acc r =>
        if r.isTerminal then
          processCandidate key sizeLt l (GrammaticalExpression.leaf r.name) acc
        else acc) acc).2 := by
  intro rl
  induction rl with
  | nil => intro acc h; exact h
  | cons r rl ih =>
    intro acc h
    refine ih _ ?_
    dsimp only
    by_cases ht : r.isTerminal = true
    · rw [if_pos ht]
      exact USInv_processCandidate l (GrammaticalExpression.leaf r.name) acc h
    · rw [if_neg ht]
      exact h

theorem uTupleF_sizeLt_pres {key : GrammaticalExpression → κ}
    {rec : Nat → τ → UniqueState τ κ →
      Option (List (GrammaticalExpression × UniqueDict τ κ) × UniqueState τ κ)}
    (hrec : ∀ d l s q, USInv key s → rec d l s = some q → USInv key q.2)
    (d' : Nat) (ts : List τ) (rname : String) (l : τ) :
    ∀ t s q, USInv key s →
      uTupleF key sizeLt rec d' ts rname l t s = some q → USInv key q.2 := by
  intro t s q hs hq
  unfold uTupleF at hq
  cases hm : t.max? with
  | none => rw [hm] at hq; cases hq
  | some m =>
    rw [hm] at hq
    dsimp only at hq
    by_cases hlt : m < d'
    · rw [if_pos hlt] at hq
      cases hq
      exact hs
    · rw [if_neg hlt] at hq
      cases hseq : seqSt (fun p s3 =>
          (rec p.1 p.2 s3).map fun q => (q.1.map Prod.fst, q.2)) (t.zip ts) s with
      | none => rw [hseq] at hq; cases hq
      | some p =>
        rw [hseq] at hq
        simp only [Option.map_some', Option.some.injEq] at hq
        have hp : USInv key p.2 := by
          refine seqSt_pres ?_ (t.zip ts) s p hs hseq
          intro a s3 q0 hs3 hq0
          cases hr : rec a.1 a.2 s3 with
          | none => rw [hr] at hq0; cases hq0
          | some q1 =>
            rw [hr] at hq0
            simp only [Option.map_some', Option.some.injEq] at hq0
            have := hrec a.1 a.2 s3 q1 hs3 hr
            rw [← hq0]
            exact this
        rw [← hq]
        exact foldl_node_pres l rname (listProd p.1) ([], p.2) hp

theorem uRuleF_sizeLt_pres {key : GrammaticalExpression → κ}
    {rec : Nat → τ → UniqueState τ κ →
      Option (List (GrammaticalExpression × UniqueDict τ κ) × UniqueState τ κ)}
    (hrec : ∀ d l s q, USInv key s → rec d l s = some q → USInv key q.2)
    (d' : Nat) (l : τ) :
    ∀ (r : Rule τ V) s q, USInv key s →
      uRuleF key sizeLt rec d' l r s = some q → USInv key q.2 := by
  intro r s q hs hq
  unfold uRuleF at hq
  cases hr : r.rhs with
  | none =>
    rw [hr] at hq
    cases hq
    exact hs
  | some ts =>
    rw [hr] at hq
    exact flatMapSt_pres (uTupleF_sizeLt_pres hrec d' ts r.name l) _ s q hs hq

theorem enumUStep_sizeLt_pres {g : Grammar τ V} {key : GrammaticalExpression → κ}
    {rec : Nat → τ → UniqueState τ κ →
      Option (List (GrammaticalExpression × UniqueDict τ κ) × UniqueState τ κ)}
    (hrec : ∀ d l s q, USInv key s → rec d l s = some q → USInv key q.2) :
    ∀ d l s q, USInv key s →
      Grammar.enumUStep g key sizeLt rec d l s = some q → USInv key q.2 := by
  intro d l s q hs hq
  unfold Grammar.enumUStep at hq
  cases hcache : assocFind s.cache (d, l) with
  | some es =>
    rw [hcache] at hq
    cases hq
    exact hs
  | none =>
    rw [hcache] at hq
    cases d with
    | zero =>
      dsimp only at hq
      cases hq
      refine USInv_set_cache ?_ _
      exact foldl_terminal_pres l (g.rulesFor l) ([], s) hs
    | succ d' =>
      dsimp only at hq
      cases hflat : flatMapSt (uRuleF key sizeLt rec d' l) (g.rulesFor l) s with
      | none => rw [hflat] at hq; cases hq
      | some p =>
        rw [hflat] at hq
        simp only [Option.map_some', Option.some.injEq] at hq
        have hp : USInv key p.2 :=
          flatMapSt_pres (uRuleF_sizeLt_pres hrec d' l) _ s p hs hflat
        rw [← hq]
        exact USInv_set_cache hp _

theorem enumUAux_sizeLt_pres (g : Grammar τ V) (key : GrammaticalExpression → κ) :
    ∀ fuel d l s q, USInv key s →
      Grammar.enumUAux g key sizeLt fuel d l s = some q → USInv key q.2 := by
  intro fuel
  induction fuel with
  | zero => intro d l s q _ hq; cases hq
  | succ fuel ih =>
    intro d l s q hs hq
    exact enumUStep_sizeLt_pres (fun d l s q hs hq => ih d l s q hs hq) d l s q hs hq

theorem enumerateU_sizeLt_pres (g : Grammar τ V) (key : GrammaticalExpression → κ)
    (depth : Nat) (l : τ) (s : UniqueState τ κ) (q : _) (hs : USInv key s)
    (hq : Grammar.enumerateU g key sizeLt depth l s = some q) : USInv key q.2 := by
  unfold Grammar.enumerateU at hq
  refine flatMapSt_pres ?_ (List.range depth) s q hs hq
  intro num s1 q1 hs1 hq1
  exact enumUAux_sizeLt_pres g key (num+1) num l s1 q1 hs1 hq1

/-- C2: with `compare` = strictly-smaller-size-wins, `add_unique` accepts a
freshly built candidate exactly when no entry exists yet for its
`(lhs, key)` or the candidate is strictly shorter than the stored entry,
in which case the candidate replaces the stored entry; consequently, for
every uniqueness-pass enumeration run started from an empty state, the
final `unique_expressions` dictionary retains at most one expression per
key under each `lhs`, and every expression constructed during the run has,
at its `(lhs, key)` slot, a retained expression no longer than itself — so
no constructed expression with the same key was strictly smaller than the
retained one. -/
theorem unique_pass_minimality {τ : Type u} {V : Type v} {κ : Type w}
    [DecidableEq τ] [DecidableEq κ] (key : GrammaticalExpression → κ) :
    (∀ (l : τ) (e : GrammaticalExpression) (ud : UniqueDict τ κ),
      ((addUnique key sizeLt l e ud).1 = true ↔
        (assocFind (innerAt ud l) (key e) = none ∨
         ∃ e0, assocFind (innerAt ud l) (key e) = some e0 ∧
           e.length < e0.length)) ∧
      ((addUnique key sizeLt l e ud).1 = true →
        assocFind (innerAt (addUnique key sizeLt l e ud).2 l) (key e) = some e) ∧
      ((addUnique key sizeLt l e ud).1 = false →
        innerAt (addUnique key sizeLt l e ud).2 l = innerAt ud l)) ∧
    (∀ (g : Grammar τ V) (depth : Nat) (l0 : τ)
      (q : List (GrammaticalExpression × UniqueDict τ κ) × UniqueState τ κ),
      g.enumerateU key sizeLt depth l0
        { udict := [], cache := [], constructed := [] } = some q →
      (∀ l inner, assocFind q.2.udict l = some inner →
        (inner.map Prod.fst).Nodup) ∧
      (∀ p ∈ q.2.constructed, ∃ e0,
        assocFind (innerAt q.2.udict p.1) (key p.2) = some e0 ∧
          e0.length ≤ p.2.length)) := by
  constructor
  · intro l e ud
    refine ⟨addUnique_accept_iff key l e ud, ?_, ?_⟩
    · intro hacc
      rw [innerAt_addUnique_self]
      rcases (addUnique_accept_iff key l e ud).mp hacc with hf | ⟨e0, hf, hlt⟩
      · rw [hf]
        exact assocFind_set_self _ _ _
      · rw [hf]
        dsimp only
        have hc : sizeLt e e0 = true := decide_eq_true hlt
        rw [if_pos hc, assocFind_set_self]
    · intro hrej
      rw [innerAt_addUnique_self]
      cases hf : assocFind (innerAt ud l) (key e) with
      | none =>
        exfalso
        have : (addUnique key sizeLt l e ud).1 = true :=
          (addUnique_accept_iff key l e ud).mpr (Or.inl hf)
        rw [hrej] at this
        exact Bool.noConfusion this
      | some e0 =>
        dsimp only
        by_cases hc : sizeLt e e0 = true
        · exfalso
          have : (addUnique key sizeLt l e ud).1 = true :=
            (addUnique_accept_iff key l e ud).mpr
              (Or.inr ⟨e0, hf, of_decide_eq_true hc⟩)
          rw [hrej] at this
          exact Bool.noConfusion this
        · rw [if_neg hc]
  · intro g depth l0 q hq
    have hinv : USInv key q.2 :=
      enumerateU_sizeLt_pres g key depth l0 _ q
        ⟨fun l inner h => Option.noConfusion h,
         fun p hp => absurd hp (List.not_mem_nil p)⟩ hq
    exact ⟨hinv.1, hinv.2⟩

/-- Witness for `unique_pass_minimality`: a concrete uniqueness run over
`gNot` with a constant key, where the rejected candidate `nn(tt)` has a
retained expression (`tt`) no longer than itself. -/
theorem unique_pass_minimality_witness :
    ∃ e0, assocFind
        (innerAt ([("B", [("k", GrammaticalExpression.leaf "tt")])] :
          UniqueDict String String) "B") "k" = some e0 ∧
      e0.length ≤
        (GrammaticalExpression.node "nn" [GrammaticalExpression.leaf "tt"]).length :=
  ((unique_pass_minimality (fun _ => "k")).2 gNot 2 "B"
      ([(GrammaticalExpression.leaf "tt", [("B", [("k", GrammaticalExpression.leaf "tt")])])],
       { udict := [("B", [("k", GrammaticalExpression.leaf "tt")])],
         cache := [((0, "B"), [GrammaticalExpression.leaf "tt"])],
         constructed := [("B", GrammaticalExpression.leaf "tt"),
           ("B", GrammaticalExpression.node "nn" [GrammaticalExpression.leaf "tt"])] })
      (by decide)).2
    ("B", GrammaticalExpression.node "nn" [GrammaticalExpression.leaf "tt"])
    (by decide)

/-- C1: refuted as stated — `get_unique_expressions` tests
`len(unique_dict) == max_size` on the OUTER dictionary, whose keys are the
`lhs` symbols encountered, not on the number of distinct uniqueness keys.
Over `gABC` (three terminal rules under `S`, so three distinct root-name
keys at depth 0) with `max_size = 2`, the outer dictionary only ever has
the single key `S`, the early stop never fires, and the returned mapping
for `S` holds all three keys instead of stopping at two. -/
theorem getUniqueExpressions_maxsize_bug :
    gABC.getUniqueExpressions 1 GrammaticalExpression.ruleName sizeLt "S" (some 2) =
      some [("a", GrammaticalExpression.leaf "a"),
            ("b", GrammaticalExpression.leaf "b"),
            ("c", GrammaticalExpression.leaf "c")] := by
  decide

/-- Counterexample to C7 as stated: a first call with the empty universe
stores the empty mapping, and a subsequent call (here with universe `[0]`)
recomputes and returns a different mapping instead of the stored one,
because the memoization test `not self.meaning` treats the empty stored
mapping as absent. -/
theorem evaluate_counterexample :
    (FuncExpression.evaluate (FuncExpression.leaf "z" fun _ => (7 : Nat)) [] []).2 = [] ∧
    (FuncExpression.evaluate (FuncExpression.leaf "z" fun _ => (7 : Nat)) [] [0]).1 = [(0, 7)] ∧
    [((0 : Nat), (7 : Nat))] ≠ ([] : List (Nat × Nat)) :=
  ⟨rfl, rfl, by decide⟩

/-- C7 (amended): a call with no stored mapping returns and stores the
mapping sending each universe element `r` to `e(r)`; once the stored
mapping is nonempty (as after any first call on a nonempty universe),
every subsequent call with any universe returns the stored mapping
unchanged, without recomputation. -/
theorem evaluate_memoizes {V : Type v} (e : FuncExpression V) :
    (∀ u : List V,
      (FuncExpression.evaluate e [] u).1 = u.map (fun r => (r, e.call r)) ∧
      (FuncExpression.evaluate e [] u).2 = u.map (fun r => (r, e.call r))) ∧
    (∀ (stored : List (V × V)) (u : List V), stored ≠ [] →
      FuncExpression.evaluate e stored u = (stored, stored)) := by
  constructor
  · intro u
    exact ⟨rfl, rfl⟩
  · intro stored u hne
    unfold FuncExpression.evaluate
    rw [if_neg (by simpa using hne)]

/-- Witness for `evaluate_memoizes`: a nonempty stored mapping is returned
unchanged even for a different universe. -/
theorem evaluate_memoizes_witness :
    FuncExpression.evaluate (FuncExpression.leaf "z" fun _ => (7 : Nat))
      [(0, 7)] [1, 2] = ([(0, 7)], [(0, 7)]) :=
  (evaluate_memoizes (FuncExpression.leaf "z" fun _ => (7 : Nat))).2
    [(0, 7)] [1, 2] (by decide)
